import Mathlib

set_option maxRecDepth 100000

/-!
Verification of the dbsync synchronization library (zworkb/python-sync-db).

This file shallowly embeds the parts of the library that the checked
claims are about:

* `dbsync/messages/push.py` — `PushMessage._portion`, `_sign`, `set_node`,
  `islegit` (SHA-512 signing of push messages);
* `dbsync/core.py` — `make_content_type_id` (CRC-32 of latin-1 bytes) and
  `with_transaction` (commit / rollback semantics);
* `dbsync/wscommon.py` — `exception_as_dict`;
* `dbsync/messages/codecs.py` — the `_encode_table` / `_decode_table`
  column codecs (dates, datetimes, times, binary via base-64, decimals);
* `dbsync/models.py` — `Operation.perform_async` (the per-operation apply);
* `dbsync/server/wsserver.py` — `handle_push`;
* `dbsync/client/pull.py` — the direct-conflict decision table of `merge`
  and `purgelocal`;
* the operation-log compressor (`compress`), which is modelled from the
  specification because `dbsync/client/compression.py` is not part of the
  source snapshot.

Machine integers are embedded as `Nat` with explicit reductions modulo
`2 ^ 64` (SHA-512) and `2 ^ 32` (CRC-32).  Python `None` becomes `Option`,
Python exceptions become `Except`.
-/

namespace Dbsync

deriving instance DecidableEq for Except

/-! ## Word-level helpers (64-bit arithmetic on `Nat`) -/

/-- Truncate to a 64-bit word, as Python's `& ((1<<64)-1)` masking that the
SHA-512 arithmetic relies on. -/
def w64 (n : Nat) : Nat := n % (2 ^ 64)

/-- Bitwise complement within 64 bits. -/
def not64 (x : Nat) : Nat := (2 ^ 64 - 1) ^^^ x

/-- Right rotation of a 64-bit word. -/
def rotr (n x : Nat) : Nat := w64 ((x >>> n) ||| (x <<< (64 - n)))

/-! ## Hex rendering

`"%.32x" % int(uuid)` in `PushMessage._portion` renders the 128-bit GUID
as exactly 32 lowercase hex characters (GUID values are below `2 ^ 128`,
so the minimum-width padding always yields width 32). -/

/-- Lowercase hex digit. -/
def hexDigitChar (n : Nat) : Char :=
  if n < 10 then Char.ofNat (48 + n) else Char.ofNat (87 + n)

/-- `"%.32x"` of a GUID value (`n < 2 ^ 128`): 32 lowercase hex chars,
zero padded. -/
def hex32 (n : Nat) : String :=
  String.mk ((List.range 32).map fun i => hexDigitChar (n / 16 ^ (31 - i) % 16))

/-- Hex rendering of a 64-bit word as 16 lowercase hex chars (used for the
SHA-512 `hexdigest`). -/
def hex16 (n : Nat) : List Char :=
  (List.range 16).map fun i => hexDigitChar (n / 16 ^ (15 - i) % 16)

/-! ## UTF-8 encoding (`str.encode("utf-8")`) -/

/-- UTF-8 bytes of a single code point. -/
def utf8Char (c : Nat) : List Nat :=
  if c < 0x80 then [c]
  else if c < 0x800 then
    [0xC0 ||| (c >>> 6), 0x80 ||| (c &&& 0x3F)]
  else if c < 0x10000 then
    [0xE0 ||| (c >>> 12), 0x80 ||| ((c >>> 6) &&& 0x3F), 0x80 ||| (c &&& 0x3F)]
  else
    [0xF0 ||| (c >>> 18), 0x80 ||| ((c >>> 12) &&& 0x3F),
     0x80 ||| ((c >>> 6) &&& 0x3F), 0x80 ||| (c &&& 0x3F)]

/-- UTF-8 encoding of a string, as a byte list (Python `s.encode("utf-8")`). -/
def utf8Encode (s : String) : List Nat :=
  (s.data.map fun c => utf8Char c.toNat).flatten

/-! ## SHA-512 (`hashlib.sha512`)

A direct embedding of FIPS 180-4 SHA-512 over byte lists, with all word
arithmetic on `Nat` reduced modulo `2 ^ 64`. -/

/-- SHA-512 round constants (first 64 bits of the fractional parts of the
cube roots of the first 80 primes). -/
def sha512K : List Nat :=
 [4794697086780616226, 8158064640168781261, 13096744586834688815, 16840607885511220156,
  4131703408338449720, 6480981068601479193, 10538285296894168987, 12329834152419229976,
  15566598209576043074, 1334009975649890238, 2608012711638119052, 6128411473006802146,
  8268148722764581231, 9286055187155687089, 11230858885718282805, 13951009754708518548,
  16472876342353939154, 17275323862435702243, 1135362057144423861, 2597628984639134821,
  3308224258029322869, 5365058923640841347, 6679025012923562964, 8573033837759648693,
  10970295158949994411, 12119686244451234320, 12683024718118986047, 13788192230050041572,
  14330467153632333762, 15395433587784984357, 489312712824947311, 1452737877330783856,
  2861767655752347644, 3322285676063803686, 5560940570517711597, 5996557281743188959,
  7280758554555802590, 8532644243296465576, 9350256976987008742, 10552545826968843579,
  11727347734174303076, 12113106623233404929, 14000437183269869457, 14369950271660146224,
  15101387698204529176, 15463397548674623760, 17586052441742319658, 1182934255886127544,
  1847814050463011016, 2177327727835720531, 2830643537854262169, 3796741975233480872,
  4115178125766777443, 5681478168544905931, 6601373596472566643, 7507060721942968483,
  8399075790359081724, 8693463985226723168, 9568029438360202098, 10144078919501101548,
  10430055236837252648, 11840083180663258601, 13761210420658862357, 14299343276471374635,
  14566680578165727644, 15097957966210449927, 16922976911328602910, 17689382322260857208,
  500013540394364858, 748580250866718886, 1242879168328830382, 1977374033974150939,
  2944078676154940804, 3659926193048069267, 4368137639120453308, 4836135668995329356,
  5532061633213252278, 6448918945643986474, 6902733635092675308, 7801388544844847127]

/-- SHA-512 initial hash state. -/
structure Sha512State where
  a : Nat
  b : Nat
  c : Nat
  d : Nat
  e : Nat
  f : Nat
  g : Nat
  h : Nat
deriving Repr, DecidableEq

def sha512H0 : Sha512State :=
  ⟨7640891576956012808, 13503953896175478587, 4354685564936845355, 11912009170470909681,
   5840696475078001361, 11170449401992604703, 2270897969802886507, 6620516959819538809⟩

def bigSigma0 (x : Nat) : Nat := rotr 28 x ^^^ rotr 34 x ^^^ rotr 39 x
def bigSigma1 (x : Nat) : Nat := rotr 14 x ^^^ rotr 18 x ^^^ rotr 41 x
def smallSigma0 (x : Nat) : Nat := rotr 1 x ^^^ rotr 8 x ^^^ (x >>> 7)
def smallSigma1 (x : Nat) : Nat := rotr 19 x ^^^ rotr 61 x ^^^ (x >>> 6)
def chFn (x y z : Nat) : Nat := (x &&& y) ^^^ (not64 x &&& z)
def majFn (x y z : Nat) : Nat := (x &&& y) ^^^ (x &&& z) ^^^ (y &&& z)

/-- Pack consecutive groups of 8 bytes into big-endian 64-bit words. -/
def toWords : List Nat → List Nat
  | b0 :: b1 :: b2 :: b3 :: b4 :: b5 :: b6 :: b7 :: rest =>
    (((((((b0 * 256 + b1) * 256 + b2) * 256 + b3) * 256 + b4) * 256 + b5) * 256
      + b6) * 256 + b7) :: toWords rest
  | _ => []

/-- Split a word list into blocks of 16 words (128 bytes). -/
def toBlocks : List Nat → List (List Nat)
  | w0 :: w1 :: w2 :: w3 :: w4 :: w5 :: w6 :: w7 ::
    w8 :: w9 :: w10 :: w11 :: w12 :: w13 :: w14 :: w15 :: rest =>
    [w0, w1, w2, w3, w4, w5, w6, w7, w8, w9, w10, w11, w12, w13, w14, w15]
      :: toBlocks rest
  | _ => []

/-- SHA-512 padding: append `0x80`, zeros, and the 128-bit big-endian bit
length, reaching a multiple of 128 bytes. -/
def sha512Pad (msg : List Nat) : List Nat :=
  let l := msg.length
  let zeros := (128 - (l + 17) % 128) % 128
  msg ++ [0x80] ++ List.replicate zeros 0 ++
    ((List.range 16).map fun i => (8 * l) >>> (8 * (15 - i)) % 256 % 256)

/-- Extend the 16 message-schedule words to 80, building the list in
reverse (newest first). -/
def extendSchedule : Nat → List Nat → List Nat
  | 0, acc => acc
  | n + 1, acc =>
    extendSchedule n
      (w64 (smallSigma1 (acc.getD 1 0) + acc.getD 6 0 +
            smallSigma0 (acc.getD 14 0) + acc.getD 15 0) :: acc)

/-- The 80 message-schedule words for one block. -/
def schedule (block : List Nat) : List Nat :=
  (extendSchedule 64 block.reverse).reverse

/-- One SHA-512 round. -/
def sha512Round (st : Sha512State) (kw : Nat × Nat) : Sha512State :=
  let t1 := w64 (st.h + bigSigma1 st.e + chFn st.e st.f st.g + kw.1 + kw.2)
  let t2 := w64 (bigSigma0 st.a + majFn st.a st.b st.c)
  ⟨w64 (t1 + t2), st.a, st.b, st.c, w64 (st.d + t1), st.e, st.f, st.g⟩

/-- Process one 16-word block. -/
def sha512Block (st : Sha512State) (block : List Nat) : Sha512State :=
  let f := (sha512K.zip (schedule block)).foldl sha512Round st
  ⟨w64 (st.a + f.a), w64 (st.b + f.b), w64 (st.c + f.c), w64 (st.d + f.d),
   w64 (st.e + f.e), w64 (st.f + f.f), w64 (st.g + f.g), w64 (st.h + f.h)⟩

/-- SHA-512 digest of a byte list, as the 128-char lowercase hex string
(`hashlib.sha512(...).hexdigest()`). -/
def sha512Hex (msg : List Nat) : String :=
  let f := (toBlocks (toWords (sha512Pad msg))).foldl sha512Block sha512H0
  String.mk (hex16 f.a ++ hex16 f.b ++ hex16 f.c ++ hex16 f.d ++
             hex16 f.e ++ hex16 f.f ++ hex16 f.g ++ hex16 f.h)

/-- `hashlib.sha512(text.encode("utf-8")).hexdigest()`. -/
def sha512HexOfString (s : String) : String := sha512Hex (utf8Encode s)

/-! ## Operations and push messages (`dbsync/models.py`, `dbsync/messages/push.py`)

`Operation.command` is validated to one of `'i'`, `'u'`, `'d'`
(`Operation.validate_command`), embedded as an inductive. `Operation.row_id`
is a `GUID` column, embedded as the 128-bit value of the UUID. -/

inductive Cmd
  | i
  | u
  | d
deriving Repr, DecidableEq

/-- The one-character string of a command, as stored in the
`command = Column(String(1))` column. -/
def Cmd.str : Cmd → String
  | .i => "i"
  | .u => "u"
  | .d => "d"

/-- An `Operation` row: `{row_id, content_type_id, command, order}`
(`version_id` is carried separately where it matters). -/
structure POp where
  rowId : Nat
  contentTypeId : Nat
  command : Cmd
  order : Nat
deriving Repr, DecidableEq

/-- A `Node` registry row (its `node_id` and server-issued `secret`). -/
structure NodeRec where
  nodeId : Nat
  secret : String
deriving Repr, DecidableEq

/-- A `PushMessage`: node id, signature key, claimed latest version, the
unversioned operations, and the row payload (`(content_type_id, row_id)`
to the carried row value). -/
structure PushMsg where
  nodeId : Option Nat
  key : Option String
  latestVersionId : Option Int
  operations : List POp
  payload : Nat → Nat → Option Nat

/-- `PushMessage._portion`: the concatenation, in operation order, of
`"&" + "%.32x" % row_id + "#" + content_type_id + "#" + command`. -/
def portion (ops : List POp) : String :=
  ops.foldl
    (fun acc op =>
      acc ++ "&" ++ hex32 op.rowId ++ "#" ++ Nat.repr op.contentTypeId ++ "#"
        ++ op.command.str)
    ""

/-- `PushMessage._sign` with a present secret:
`key = sha512((secret + portion).encode("utf-8")).hexdigest()`. -/
def sign (secret : String) (m : PushMsg) : PushMsg :=
  { m with key := some (sha512HexOfString (secret ++ portion m.operations)) }

/-- `PushMessage.set_node`: on a non-`None` node, store its id and sign
with its secret. -/
def setNode (m : PushMsg) (node : Option NodeRec) : PushMsg :=
  match node with
  | none => m
  | some n => sign n.secret { m with nodeId := some n.nodeId }

/-- `session.query(Node).filter(Node.node_id == nid).first()` over the
node registry. -/
def lookupNode (nodes : List NodeRec) (nid : Nat) : Option NodeRec :=
  nodes.find? fun n => n.nodeId == nid

/-- The `LookupError(f"node with id {nid} not found")` raised by `islegit`. -/
inductive LegitErr
  | lookupError (nid : Nat)
deriving Repr, DecidableEq

/-- `PushMessage.islegit`: `False` when key or node id is `None`; a
`LookupError` when the node is not registered; otherwise compare the key
against the digest recomputed from the *stored* secret. -/
def islegit (nodes : List NodeRec) (m : PushMsg) : Except LegitErr Bool :=
  match m.key, m.nodeId with
  | none, _ => .ok false
  | some _, none => .ok false
  | some k, some nid =>
    match lookupNode nodes nid with
    | none => .error (.lookupError nid)
    | some node =>
      .ok (k == sha512HexOfString (node.secret ++ portion m.operations))

/-! ## Content-type ids (`dbsync/core.py`, `make_content_type_id`) -/

/-- One step of the reflected CRC-32 bit loop (polynomial `0xEDB88320`). -/
def crc32Step (c : Nat) : Nat :=
  if c % 2 = 1 then (c >>> 1) ^^^ 0xEDB88320 else c >>> 1

/-- Fold one byte into the CRC accumulator. -/
def crc32Byte (crc b : Nat) : Nat := crc32Step^[8] (crc ^^^ b % 256)

/-- `zlib.crc32(data, init)`. -/
def crc32 (data : List Nat) (init : Nat) : Nat :=
  data.foldl crc32Byte (init ^^^ 0xFFFFFFFF) ^^^ 0xFFFFFFFF

/-- `s.encode("latin-1")`: defined only when every code point fits a byte,
a `UnicodeEncodeError` (`none`) otherwise. -/
def latin1Encode (s : String) : Option (List Nat) :=
  if s.data.all fun c => c.toNat < 256 then some (s.data.map fun c => c.toNat)
  else none

/-- The identity of a tracked model: its class name and its table name. -/
structure ModelInfo where
  modelName : String
  tableName : String
deriving Repr, DecidableEq

/-- `make_content_type_id`:
`zlib.crc32("{model.__name__}/{model.__table__.name}".encode("latin-1"), 0)
 & 0xffffffff`. -/
def makeContentTypeId (m : ModelInfo) : Option Nat :=
  (latin1Encode (m.modelName ++ "/" ++ m.tableName)).map fun bs =>
    crc32 bs 0 &&& 0xffffffff

/-! ## Error envelope (`dbsync/wscommon.py`, `exception_as_dict`) -/

/-- Four lowercase hex digits (the `\uXXXX` payload). -/
def hex4 (n : Nat) : List Char :=
  (List.range 4).map fun i => hexDigitChar (n / 16 ^ (3 - i) % 16)

/-- `json.dumps` escaping of one character (default `ensure_ascii=True`:
everything outside `0x20`-`0x7E` is `\u`-escaped, with surrogate pairs
beyond the BMP). -/
def jsonEscapeChar (c : Char) : List Char :=
  let n := c.toNat
  if c = '"' then ['\\', '"']
  else if c = '\\' then ['\\', '\\']
  else if c = '\n' then ['\\', 'n']
  else if c = '\r' then ['\\', 'r']
  else if c = '\t' then ['\\', 't']
  else if c = Char.ofNat 8 then ['\\', 'b']
  else if c = Char.ofNat 12 then ['\\', 'f']
  else if n < 0x20 ∨ 0x7E < n then
    if n < 0x10000 then '\\' :: 'u' :: hex4 n
    else
      ('\\' :: 'u' :: hex4 (0xD800 + (n - 0x10000) / 0x400)) ++
        ('\\' :: 'u' :: hex4 (0xDC00 + (n - 0x10000) % 0x400))
  else [c]

/-- A JSON string literal: quotes around the escaped characters. -/
def jsonQuote (s : String) : String :=
  "\"" ++ String.mk (s.data.map jsonEscapeChar).flatten ++ "\""

/-- The dictionary shapes `exception_as_dict` can return: `{type, args}`
(`extype = none`) or `{type: "exception", extype, args}`. -/
structure ExcDict where
  type : String
  extype : Option String
  args : List String
deriving Repr, DecidableEq

/-- `json.dumps` of an `ExcDict`, with the default separators and the
insertion order of the keys. -/
def dumpExcDict (d : ExcDict) : String :=
  match d.extype with
  | none =>
    "\x7b\"type\": " ++ jsonQuote d.type ++ ", \"args\": [" ++
      String.intercalate ", " (d.args.map jsonQuote) ++ "]\x7d"
  | some x =>
    "\x7b\"type\": " ++ jsonQuote d.type ++ ", \"extype\": " ++ jsonQuote x ++
      ", \"args\": [" ++ String.intercalate ", " (d.args.map jsonQuote) ++ "]\x7d"

/-- `exception_as_dict`, for an exception with class name `exType` and
(stringified) arguments `exArgs`: the `{type, args}` dict when its JSON
dump stays under 124 characters, else the fallback
`{type: "exception", extype, args: [",".join(args)[:100]]}`. -/
def exceptionAsDict (exType : String) (exArgs : List String) : ExcDict :=
  let res : ExcDict := ⟨exType, none, exArgs⟩
  if (dumpExcDict res).length < 124 then res
  else ⟨"exception", some exType, [(String.intercalate "," exArgs).take 100]⟩

/-! ## Base-64 (`base64.standard_b64encode` / `standard_b64decode`) -/

/-- The standard base-64 alphabet character for a 6-bit value. -/
def b64Char (n : Nat) : Char :=
  if n < 26 then Char.ofNat (65 + n)
  else if n < 52 then Char.ofNat (97 + (n - 26))
  else if n < 62 then Char.ofNat (48 + (n - 52))
  else if n = 62 then '+'
  else '/'

/-- The 6-bit value of a standard base-64 alphabet character. -/
def b64Value (c : Char) : Nat :=
  let n := c.toNat
  if 65 ≤ n ∧ n ≤ 90 then n - 65
  else if 97 ≤ n ∧ n ≤ 122 then n - 97 + 26
  else if 48 ≤ n ∧ n ≤ 57 then n - 48 + 52
  else if c = '+' then 62
  else 63

/-- `base64.standard_b64encode`: 3-byte groups to 4 alphabet characters,
with `'='` padding for a 1- or 2-byte tail. -/
def b64encode : List Nat → List Char
  | [] => []
  | [b1] => [b64Char (b1 / 4), b64Char (b1 % 4 * 16), '=', '=']
  | [b1, b2] =>
    [b64Char (b1 / 4), b64Char (b1 % 4 * 16 + b2 / 16), b64Char (b2 % 16 * 4), '=']
  | b1 :: b2 :: b3 :: rest =>
    b64Char (b1 / 4) :: b64Char (b1 % 4 * 16 + b2 / 16) ::
      b64Char (b2 % 16 * 4 + b3 / 64) :: b64Char (b3 % 64) :: b64encode rest

/-- `base64.standard_b64decode` on well-formed input: consume 4-character
quanta; a quantum ending in `'='` closes the stream with the final 1 or 2
bytes. -/
def b64decode : List Char → List Nat
  | c1 :: c2 :: c3 :: c4 :: rest =>
    if c4 = '=' then
      if c3 = '=' then [b64Value c1 * 4 + b64Value c2 / 16]
      else
        [b64Value c1 * 4 + b64Value c2 / 16,
         b64Value c2 % 16 * 16 + b64Value c3 / 4]
    else
      (b64Value c1 * 4 + b64Value c2 / 16) ::
        (b64Value c2 % 16 * 16 + b64Value c3 / 4) ::
        (b64Value c3 % 4 * 64 + b64Value c4) :: b64decode rest
  | _ => []

/-! ## Python `Decimal` string round-trip (`str` / `decimal.Decimal`)

A `Decimal` value is a sign, a coefficient and an exponent.  `str` follows
the to-scientific-string algorithm of `_pydecimal.Decimal.__str__`;
`decParse` is `decimal.Decimal(str)` on numeric strings. -/

structure PyDecimal where
  neg : Bool
  coeff : Nat
  exp : Int
deriving Repr, DecidableEq

/-- Decimal digits of `n`, least significant first, with explicit fuel so
that the kernel can evaluate it. -/
def digitsAuxRev : Nat → Nat → List Nat
  | 0, _ => []
  | _ + 1, 0 => []
  | fuel + 1, n + 1 => (n + 1) % 10 :: digitsAuxRev fuel ((n + 1) / 10)

/-- The digit string of a coefficient, most significant first
(`Decimal._int`; the coefficient `0` is the single digit `0`). -/
def coeffDigits (c : Nat) : List Nat :=
  if c = 0 then [0] else (digitsAuxRev c c).reverse

def digitChar (d : Nat) : Char := Char.ofNat (48 + d)

def digitsStr (ds : List Nat) : List Char := ds.map digitChar

/-- `"%+d" % e`: an explicit sign followed by the decimal digits. -/
def plusRepr (e : Int) : String :=
  (if e < 0 then "-" else "+") ++ String.mk (digitsStr (coeffDigits e.natAbs))

/-- The integer-part digits, fraction-part digits and exponent chosen by
`Decimal.__str__`: `leftdigits = exp + len(digits)`; fixed-point notation
when `exp <= 0 and leftdigits > -6` (`dotplace = leftdigits`), scientific
otherwise (`dotplace = 1`). -/
def decStrParts (d : PyDecimal) : List Nat × List Nat × Int :=
  let digs := coeffDigits d.coeff
  let L : Int := digs.length
  let leftdigits : Int := d.exp + L
  let dotplace : Int := if d.exp ≤ 0 ∧ -6 < leftdigits then leftdigits else 1
  if dotplace ≤ 0 then
    ([0], List.replicate (-dotplace).toNat 0 ++ digs, leftdigits - dotplace)
  else if L ≤ dotplace then
    (digs ++ List.replicate (dotplace - L).toNat 0, [], leftdigits - dotplace)
  else
    (digs.take dotplace.toNat, digs.drop dotplace.toNat, leftdigits - dotplace)

/-- `str` of a `Decimal`. -/
def decStr (d : PyDecimal) : String :=
  let parts := decStrParts d
  (if d.neg then "-" else "") ++ String.mk (digitsStr parts.1) ++
    (if parts.2.1 = [] then "" else "." ++ String.mk (digitsStr parts.2.1)) ++
    (if parts.2.2 = 0 then "" else "E" ++ plusRepr parts.2.2)

/-- Leading sign of a numeric string. -/
def parseSign (cs : List Char) : Bool × List Char :=
  match cs with
  | c :: rest =>
    if c = '-' then (true, rest)
    else if c = '+' then (false, rest)
    else (false, cs)
  | [] => (false, [])

def isDigitChar (c : Char) : Bool := 48 ≤ c.toNat ∧ c.toNat ≤ 57

/-- Longest digit run at the head, as digit values. -/
def spanDigits : List Char → List Nat × List Char
  | [] => ([], [])
  | c :: cs =>
    if isDigitChar c then
      let p := spanDigits cs
      ((c.toNat - 48) :: p.1, p.2)
    else ([], c :: cs)

/-- The fraction digits after a leading `'.'`, if any. -/
def parseFrac (cs : List Char) : List Nat × List Char :=
  match cs with
  | c :: rest => if c = '.' then spanDigits rest else ([], cs)
  | [] => ([], [])

/-- The value of a most-significant-first digit list. -/
def digitsToNat (ds : List Nat) : Nat := ds.foldl (fun a d => a * 10 + d) 0

/-- `decimal.Decimal(s)` on a plain numeric string:
`sign? digits? (. digits?)? ([eE] sign? digits)?`, with
`coefficient = int(intpart + fracpart)` and
`exponent = E-value - len(fracpart)`. -/
def decParse (s : String) : Option PyDecimal :=
  let p1 := parseSign s.data
  let p2 := spanDigits p1.2
  let p3 := parseFrac p2.2
  if p2.1.length + p3.1.length = 0 then none
  else
    match p3.2 with
    | [] => some ⟨p1.1, digitsToNat (p2.1 ++ p3.1), -(p3.1.length : Int)⟩
    | c :: rest =>
      if c = 'E' ∨ c = 'e' then
        let q1 := parseSign rest
        let q2 := spanDigits q1.2
        if q2.1.length = 0 ∨ q2.2 ≠ [] then none
        else
          some ⟨p1.1, digitsToNat (p2.1 ++ p3.1),
                (if q1.1 then -(digitsToNat q2.1 : Int) else digitsToNat q2.1) -
                  (p3.1.length : Int)⟩
      else none

/-! ## Column codecs (`dbsync/messages/codecs.py`) -/

/-- The SQLAlchemy column types distinguished by `_encode_table` /
`_decode_table`: `types.Date`, `types.DateTime`, `types.Time`,
`types.LargeBinary`, `types.Numeric` (with its `asdecimal` flag), and
everything else (identity). -/
inductive ColType
  | date
  | datetime
  | time
  | largeBinary
  | numeric (asdecimal : Bool)
  | other
deriving Repr, DecidableEq

/-- Python column values and their JSON-friendly encodings, in one
universe: date/datetime/time objects, `bytes`, `Decimal`, and the wire
shapes (lists of integers, strings, plain values). -/
inductive PyValue
  | pdate (y m d : Nat)
  | pdatetime (y m d h mi s us : Nat)
  | ptime (h mi s us : Nat)
  | pbytes (bs : List Nat)
  | pdecimal (d : PyDecimal)
  | plist (l : List Int)
  | pstr (s : String)
  | pint (n : Int)
deriving Repr, DecidableEq

/-- `_encode_table`: dates to `[y, m, d]`, datetimes to
`[y, m, d, h, mi, s, us]`, times to `[h, mi, s, us]`, binary to standard
base-64, decimal `Numeric` to `str`, anything else unchanged.  `none`
models the `AttributeError` a mismatched value would raise. -/
def encodeValue : ColType → PyValue → Option PyValue
  | .date, .pdate y m d => some (.plist [y, m, d])
  | .date, _ => none
  | .datetime, .pdatetime y m d h mi s us =>
    some (.plist [y, m, d, h, mi, s, us])
  | .datetime, _ => none
  | .time, .ptime h mi s us => some (.plist [h, mi, s, us])
  | .time, _ => none
  | .largeBinary, .pbytes bs => some (.pstr (String.mk (b64encode bs)))
  | .largeBinary, _ => none
  | .numeric true, .pdecimal d => some (.pstr (decStr d))
  | .numeric true, _ => none
  | .numeric false, v => some v
  | .other, v => some v

def isLeapYear (y : Nat) : Bool := y % 4 = 0 ∧ (y % 100 ≠ 0 ∨ y % 400 = 0)

def daysInMonth (y m : Nat) : Nat :=
  if m = 2 then (if isLeapYear y then 29 else 28)
  else if m = 4 ∨ m = 6 ∨ m = 9 ∨ m = 11 then 30
  else 31

/-- The `datetime.date` constructor validity check. -/
def validDate (y m d : Nat) : Bool :=
  1 ≤ y ∧ y ≤ 9999 ∧ 1 ≤ m ∧ m ≤ 12 ∧ 1 ≤ d ∧ d ≤ daysInMonth y m

/-- The `datetime.time` constructor validity check. -/
def validTime (h mi s us : Nat) : Bool :=
  h < 24 ∧ mi < 60 ∧ s < 60 ∧ us < 1000000

/-- A bounds-checked `Nat` from a wire integer. -/
def natField (n : Int) : Option Nat := if 0 ≤ n then some n.toNat else none

/-- `_decode_table`: `datetime.date(*pars)`, `datetime.datetime(*pars)`,
`datetime.time(*pars)`, `base64.standard_b64decode`, `decimal.Decimal`,
anything else unchanged; `none` models the `ValueError` of an invalid
constructor call. -/
def decodeValue : ColType → PyValue → Option PyValue
  | .date, .plist [y, m, d] =>
    if 0 ≤ y ∧ 0 ≤ m ∧ 0 ≤ d ∧ validDate y.toNat m.toNat d.toNat then
      some (.pdate y.toNat m.toNat d.toNat)
    else none
  | .date, _ => none
  | .datetime, .plist [y, m, d, h, mi, s, us] =>
    if 0 ≤ y ∧ 0 ≤ m ∧ 0 ≤ d ∧ 0 ≤ h ∧ 0 ≤ mi ∧ 0 ≤ s ∧ 0 ≤ us ∧
        validDate y.toNat m.toNat d.toNat ∧
        validTime h.toNat mi.toNat s.toNat us.toNat then
      some (.pdatetime y.toNat m.toNat d.toNat h.toNat mi.toNat s.toNat us.toNat)
    else none
  | .datetime, _ => none
  | .time, .plist [h, mi, s, us] =>
    if 0 ≤ h ∧ 0 ≤ mi ∧ 0 ≤ s ∧ 0 ≤ us ∧
        validTime h.toNat mi.toNat s.toNat us.toNat then
      some (.ptime h.toNat mi.toNat s.toNat us.toNat)
    else none
  | .time, _ => none
  | .largeBinary, .pstr s => some (.pbytes (b64decode s.data))
  | .largeBinary, _ => none
  | .numeric true, .pstr s => (decParse s).map .pdecimal
  | .numeric true, _ => none
  | .numeric false, v => some v
  | .other, v => some v

/-- The well-formedness a Python value of the given column type has by
construction: constructor-validated fields, byte ranges. -/
def wfValue : ColType → PyValue → Prop
  | .date, .pdate y m d => validDate y m d = true
  | .datetime, .pdatetime y m d h mi s us =>
    validDate y m d = true ∧ validTime h mi s us = true
  | .time, .ptime h mi s us => validTime h mi s us = true
  | .largeBinary, .pbytes bs => ∀ b ∈ bs, b < 256
  | .numeric true, .pdecimal _ => True
  | .numeric false, _ => True
  | .other, _ => True
  | _, _ => False

/-! ## The database and per-operation apply (`dbsync/models.py`,
`Operation.perform_async`)

The store the operations act on: an association list from
`(content_type_id, row_id)` to the row value.  Row contents are opaque to
the sync engine, so a row value is embedded as a single `Nat`. -/

abbrev DB := List ((Nat × Nat) × Nat)

def dbGet (db : DB) (k : Nat × Nat) : Option Nat :=
  (db.find? fun e => e.1 == k).map fun e => e.2

/-- Store the row under its key: `UPDATE` it in place when present,
`INSERT` it at the end otherwise. -/
def dbSet : DB → (Nat × Nat) → Nat → DB
  | [], k, v => [(k, v)]
  | e :: rest, k, v =>
    if e.1 == k then (k, v) :: rest else e :: dbSet rest k v

/-- Delete the row under the key. -/
def dbDel : DB → (Nat × Nat) → DB
  | [], _ => []
  | e :: rest, k =>
    if e.1 == k then dbDel rest k else e :: dbDel rest k

/-- The `(content_type_id, row_id)` identity of the row an operation is
about. -/
def opKey (op : POp) : Nat × Nat := (op.contentTypeId, op.rowId)

/-- The predictable failures of `Operation.perform_async`
(`OperationError`). -/
inductive OpErr
  | noBacking (ctid rowId : Nat)
  | insertExisting (ctid rowId : Nat)
deriving Repr, DecidableEq

/-- `Operation.perform_async` (no model extensions registered): returns
the touched object when the operation took effect (`None` when it was a
warned no-op) together with the updated store.

* `'i'`: error without a backing payload row; insert when absent; warned
  no-op when an identical row exists; `OperationError` otherwise.
* `'u'`: error without a backing payload row; `session.merge` (create or
  overwrite) otherwise — a missing target row is only warned about.
* `'d'`: warned no-op when the row is already absent; delete otherwise. -/
def performOp (payload : Nat → Nat → Option Nat) (db : DB) (op : POp) :
    Except OpErr (Option Nat × DB) :=
  match op.command with
  | .i =>
    match payload op.contentTypeId op.rowId with
    | none => .error (.noBacking op.contentTypeId op.rowId)
    | some v =>
      match dbGet db (opKey op) with
      | none => .ok (some v, dbSet db (opKey op) v)
      | some w =>
        if w = v then .ok (none, db)
        else .error (.insertExisting op.contentTypeId op.rowId)
  | .u =>
    match payload op.contentTypeId op.rowId with
    | none => .error (.noBacking op.contentTypeId op.rowId)
    | some v => .ok (some v, dbSet db (opKey op) v)
  | .d =>
    match dbGet db (opKey op) with
    | none => .ok (none, db)
    | some w => .ok (some w, dbDel db (opKey op))

/-- The `for op in operations: op.perform_async(...)` loop: apply in list
order, stop at the first `OperationError`, collect the operations that
took effect (`post_operations`). -/
def applyOps (payload : Nat → Nat → Option Nat) :
    List POp → DB → Except OpErr (List (POp × Nat) × DB)
  | [], db => .ok ([], db)
  | op :: rest, db =>
    match performOp payload db op with
    | .error e => .error e
    | .ok (eff, db2) =>
      match applyOps payload rest db2 with
      | .error e => .error e
      | .ok (effs, db3) =>
        .ok ((match eff with | some v => [(op, v)] | none => []) ++ effs, db3)

/-- `applyOps` with the effect list dropped: the final store, `none` on an
`OperationError`. -/
def applySeq (payload : Nat → Nat → Option Nat) (db : DB) (ops : List POp) :
    Option DB :=
  match applyOps payload ops db with
  | .ok (_, db2) => some db2
  | .error _ => none

/-! ## The compressor

`dbsync/client/compression.py` is not part of the source snapshot (only
its callers are), so `compress` is modelled from the specification. -/

/-- Modelled from the spec: the fold table of §4.3 for two successive
operations on the same row — `i→u ⇒ i`, `i→d ⇒ remove both`, `u→u ⇒ u`,
`u→d ⇒ d`, `d→i ⇒ u`.  Pairs outside the table cannot arise from a
well-formed change history; the model keeps the newer operation for them. -/
def foldPair : Cmd → Cmd → Option Cmd
  | .i, .u => some .i
  | .i, .d => none
  | .u, .u => some .u
  | .u, .d => some .d
  | .d, .i => some .u
  | _, c => some c

/-- Modelled from the spec: merge one more operation into the compressed
sequence — fold it into the existing operation on the same row if any
(removing both on `i→d`), append it otherwise. -/
def insertOp : List POp → POp → List POp
  | [], op => [op]
  | e :: es, op =>
    if opKey e = opKey op then
      match foldPair e.command op.command with
      | some c => { e with command := c } :: es
      | none => es
    else e :: insertOp es op

/-- Modelled from the spec (§4.3, `compress()` of
`dbsync/client/compression.py`, absent from the snapshot): reduce a
sequence of unversioned operations to at most one per
`(content_type_id, row_id)`, preserving the relative order of distinct
rows. -/
def compress (ops : List POp) : List POp := ops.foldl insertOp []

/-- The fold state of the table of §4.3 over one row's commands. -/
def stepCmd : Option Cmd → Cmd → Option Cmd
  | none, c => some c
  | some a, c => foldPair a c

def foldCmds (cs : List Cmd) : Option Cmd := cs.foldl stepCmd none

def optCmds : Option Cmd → List Cmd
  | none => []
  | some c => [c]

/-- The commands a sequence performs on one row, in order. -/
def projCmds (k : Nat × Nat) (ops : List POp) : List Cmd :=
  (ops.filter fun o => opKey o == k).map fun o => o.command

/-- One row under `performOp` with payload value `vk`: `none` is the
`OperationError` of an insert over a different existing row. -/
def rowStep (vk : Nat) : Option Nat → Cmd → Option (Option Nat)
  | none, .i => some (some vk)
  | some w, .i => if w = vk then some (some w) else none
  | _, .u => some (some vk)
  | _, .d => some none

def rowExec (vk : Nat) : Option Nat → List Cmd → Option (Option Nat)
  | st, [] => some st
  | st, c :: cs =>
    match rowStep vk st c with
    | none => none
    | some st2 => rowExec vk st2 cs

/-- Whether one row's command sequence can arise from actual activity
starting from a row that is (`true`) or is not (`false`) present: inserts
only of absent rows, updates and deletes only of present rows. -/
def rowRealizable : Bool → List Cmd → Bool
  | _, [] => true
  | false, .i :: cs => rowRealizable true cs
  | true, .u :: cs => rowRealizable true cs
  | true, .d :: cs => rowRealizable false cs
  | _, _ => false

/-- An operation sequence is realizable from a store when every row's
command subsequence is realizable from that row's presence. -/
def realizable (db : DB) (ops : List POp) : Bool :=
  (ops.map opKey).all fun k =>
    rowRealizable (dbGet db k).isSome (projCmds k ops)

/-! ## The server push handler (`dbsync/server/wsserver.py`, `handle_push`,
wrapped in the transaction decorator of `dbsync/core.py`) -/

/-- A `Version` row: its id and the pushing node. -/
structure VersionRec where
  versionId : Nat
  nodeId : Option Nat
deriving Repr, DecidableEq

/-- The server-side persistent state touched by a push: the node registry,
the installed content types, the version log, the tracked rows and the
operation log. -/
structure ServerState where
  nodes : List NodeRec
  trackedIds : List Nat
  versions : List VersionRec
  db : DB
  oplog : List (POp × Nat)
deriving Repr, DecidableEq

/-- `get_latest_version_id`: the maximal `version_id`, `None` when no
version exists. -/
def getLatestVersionId (st : ServerState) : Option Nat :=
  st.versions.foldl
    (fun acc v =>
      match acc with
      | none => some v.versionId
      | some m => some (max m v.versionId))
    none

def optIntRepr : Option Int → String
  | none => "None"
  | some v => toString v

def optNatRepr : Option Nat → String
  | none => "None"
  | some v => toString v

/-- The latest version id as the Python integer the message field is
compared against. -/
def optInt : Option Nat → Option Int
  | none => none
  | some n => some (n : Int)

/-- The version-mismatch message of `handle_push`. -/
def versionExc (incoming : Option Int) (server : Option Nat) : String :=
  "version identifier isn't the latest one; incoming: " ++ optIntRepr incoming ++
    ", on server:" ++ optNatRepr server

/-- The errors a push can fail with: `PushRejected` (optionally carrying
the `OperationError` cause), `PullSuggested`, and a propagated
`LookupError` from `islegit`. -/
inductive PushErr
  | pushRejected (reason : String) (cause : Option OpErr)
  | pullSuggested (reason : String)
  | nodeNotFound (nid : Nat)
deriving Repr, DecidableEq

def PushErr.isPushRejected : PushErr → Bool
  | .pushRejected _ _ => true
  | _ => false

def PushErr.isPullSuggested : PushErr → Bool
  | .pullSuggested _ => true
  | _ => false

/-- Stable insertion into a list sorted by `order` (`sorted(...,
key=attr('order'))` is stable). -/
def insertByOrder (op : POp) : List POp → List POp
  | [] => [op]
  | e :: es =>
    if op.order ≤ e.order then op :: e :: es else e :: insertByOrder op es

def sortByOrder : List POp → List POp
  | [] => []
  | op :: rest => insertByOrder op (sortByOrder rest)

/-- `handle_push` for one received message, between transaction begin and
commit:

1. compare the message's `latest_version_id` with the server's;
2. verify the signature (`islegit`);
3. apply the operations whose content type is tracked, collecting
   `post_operations`;
4. insert one new `Version` iff some operation took effect, and copy the
   accomplished operations into the log under the new version id
   (modelling the autoincrement primary key as max + 1);
5. answer `new_version_id` (`None` when nothing took effect).

Unique-constraint fixups and listener/extension hooks act on state outside
this model and are identity here. -/
def handlePush (st : ServerState) (msg : PushMsg) :
    Except PushErr (ServerState × Option Nat) :=
  let latestI : Option Int := optInt (getLatestVersionId st)
  if msg.latestVersionId ≠ latestI then
    match latestI, msg.latestVersionId with
    | none, _ =>
      .error (.pushRejected (versionExc msg.latestVersionId (getLatestVersionId st)) none)
    | some _, none =>
      .error (.pullSuggested (versionExc msg.latestVersionId (getLatestVersionId st)))
    | some l, some m =>
      if m < l then
        .error (.pullSuggested (versionExc msg.latestVersionId (getLatestVersionId st)))
      else
        .error (.pushRejected (versionExc msg.latestVersionId (getLatestVersionId st)) none)
  else
    match islegit st.nodes msg with
    | .error (.lookupError nid) => .error (.nodeNotFound nid)
    | .ok false => .error (.pushRejected "message isn't properly signed" none)
    | .ok true =>
      let operations := msg.operations.filter fun o =>
        st.trackedIds.contains o.contentTypeId
      match applyOps msg.payload operations st.db with
      | .error e =>
        .error (.pushRejected "at least one operation couldn't be performed" (some e))
      | .ok (post, db2) =>
        if post = [] then .ok ({ st with db := db2 }, none)
        else
          let newVid := (getLatestVersionId st).getD 0 + 1
          .ok ({ st with
                  db := db2,
                  versions := st.versions ++ [⟨newVid, msg.nodeId⟩],
                  oplog := st.oplog ++
                    (sortByOrder (post.map fun pr => pr.1)).map fun op => (op, newVid) },
               some newVid)

/-- `with_transaction` / `with_transaction_async` (`dbsync/core.py`): run
the procedure on a fresh session; commit its changes on success, roll the
whole transaction back (leaving the persistent state untouched) when it
raises. -/
def withTransaction {α : Type} (proc : ServerState → Except PushErr (ServerState × α))
    (st : ServerState) : ServerState × Except PushErr α :=
  match proc st with
  | .ok (st2, a) => (st2, .ok a)
  | .error e => (st, .error e)

/-- The full push round on the server: `handle_push` inside
`with_transaction_async()`. -/
def handlePushTx (st : ServerState) (msg : PushMsg) :
    ServerState × Except PushErr (Option Nat) :=
  withTransaction (fun s => handlePush s msg) st

/-! ## The client merge's direct-conflict resolution
(`dbsync/client/pull.py`, `merge` phase III and `purgelocal`) -/

/-- A local unversioned operation: an identity (its position in the
operation log), its row, command and `order`. -/
structure LocalOp where
  lid : Nat
  rowId : Nat
  contentTypeId : Nat
  command : Cmd
  order : Int
deriving Repr, DecidableEq

/-- A pulled operation as the merge loop sees it (its `command` is
mutable during the loop). -/
structure PullOpM where
  rowId : Nat
  contentTypeId : Nat
  command : Cmd
deriving Repr, DecidableEq

/-- The merge loop's mutable surroundings: the local unversioned
operations (rows of the local operation log) and the four conflict sets,
each a list of `(pull-op index, local-op id)` pairs. -/
structure MergeState where
  localOps : List LocalOp
  direct : List (Nat × Nat)
  dependency : List (Nat × Nat)
  reversedDependency : List (Nat × Nat)
  insertConflicts : List (Nat × Nat)
deriving Repr, DecidableEq

/-- `purgelocal(local)`: delete the local operation from the operation log
(`session.delete` plus `unversioned_ops.remove`) and drop every pair
mentioning it from all four conflict sets (`mfilter` on each). -/
def purgelocal (st : MergeState) (lid : Nat) : MergeState :=
  { localOps := st.localOps.filter fun l => l.lid ≠ lid,
    direct := st.direct.filter fun pr => pr.2 ≠ lid,
    dependency := st.dependency.filter fun pr => pr.2 ≠ lid,
    reversedDependency := st.reversedDependency.filter fun pr => pr.2 ≠ lid,
    insertConflicts := st.insertConflicts.filter fun pr => pr.2 ≠ lid }

/-- `local.command = 'i'` on the listed local operation. -/
def setLocalCommand (st : MergeState) (lid : Nat) (c : Cmd) : MergeState :=
  { st with
    localOps := st.localOps.map fun l =>
      if l.lid = lid then { l with command := c } else l }

/-- `extract(op, direct_conflicts)`: the local counterparts of the
pull operation, in conflict-list order. -/
def extractDirect (st : MergeState) (pIdx : Nat) : List Nat :=
  (st.direct.filter fun pr => pr.1 = pIdx).map fun pr => pr.2

/-- The `for local in direct:` loop body of `merge`: thread the pull
operation's (mutable) command, `can_perform`, `reverted`, and the merge
state through the decision table

* `('u','u')`: keep local, `can_perform = False`;
* `('u','d')`: `pull_op.command = 'i'`, `purgelocal(local)`;
* `('d','u')`: `local.command = 'i'`, `reverted = True`;
* every other pair (the `('d','d')` case): `purgelocal(local)`.

A local id no longer present is skipped; with compressed local operations
(at most one per row) the loop runs at most once, so the Python loop over
already-extracted objects and this lookup-based loop agree. -/
def directLoop (st : MergeState) (pcmd : Cmd) (canPerform reverted : Bool) :
    List Nat → Cmd × Bool × Bool × MergeState
  | [] => (pcmd, canPerform, reverted, st)
  | lid :: rest =>
    match st.localOps.find? fun l => l.lid == lid with
    | none => directLoop st pcmd canPerform reverted rest
    | some l =>
      match pcmd, l.command with
      | .u, .u => directLoop st pcmd false reverted rest
      | .u, .d => directLoop (purgelocal st lid) .i canPerform reverted rest
      | .d, .u => directLoop (setLocalCommand st lid .i) pcmd canPerform true rest
      | _, _ => directLoop (purgelocal st lid) pcmd canPerform reverted rest

/-- The direct-conflict block run by `merge` for one pulled operation:
no direct conflicts leave everything untouched; otherwise `can_perform`
starts as `False` exactly when the pulled operation is a delete, and the
decision-table loop runs. -/
def processDirect (st : MergeState) (pIdx : Nat) (p : PullOpM) :
    Cmd × Bool × Bool × MergeState :=
  let lids := extractDirect st pIdx
  if lids = [] then (p.command, true, false, st)
  else directLoop st p.command (¬ p.command = .d) false lids

/-- The correspondence between the fold state of the compression table and
the store state of one row: after a realizable prefix, a fold state of
`none` means the row is as it started, `i` means it was created (it was
absent before), `u` means it holds the payload value, `d` means it is
absent. -/
def foldInv (vk : Nat) (st0 st : Option Nat) : Option Cmd → Prop
  | none => st = st0
  | some .i => st0 = none ∧ st = some vk
  | some .u => st = some vk
  | some .d => st = none

/-! # Theorems -/

/-! ## C8 — `make_content_type_id` (`dbsync/core.py`) -/

/-- **C8.** For a tracked model whose `"<ModelName>/<TableName>"` string is
latin-1 encodable (as any generated model name is), `make_content_type_id`
returns the unsigned CRC-32 of its latin-1 bytes — a value below `2 ^ 32`
— and it is deterministic: two installs of a model with the same class
name and table name compute the identical content type id. -/
theorem make_content_type_id_spec (m m' : ModelInfo)
    (h : ∀ c ∈ (m.modelName ++ "/" ++ m.tableName).data, c.toNat < 256)
    (hsame : m.modelName = m'.modelName ∧ m.tableName = m'.tableName) :
    makeContentTypeId m =
      some (crc32 ((m.modelName ++ "/" ++ m.tableName).data.map fun c => c.toNat) 0
              &&& 0xffffffff) ∧
    (∀ v, makeContentTypeId m = some v → v < 2 ^ 32) ∧
    makeContentTypeId m = makeContentTypeId m' := by
  obtain ⟨h1, h2⟩ := hsame
  have henc : latin1Encode (m.modelName ++ "/" ++ m.tableName) =
      some ((m.modelName ++ "/" ++ m.tableName).data.map fun c => c.toNat) := by
    unfold latin1Encode
    rw [if_pos]
    exact List.all_eq_true.mpr fun c hc => decide_eq_true (h c hc)
  refine ⟨?_, ?_, ?_⟩
  · unfold makeContentTypeId
    rw [henc]
    rfl
  · intro v hv
    unfold makeContentTypeId at hv
    rw [henc] at hv
    have hle : v ≤ 0xffffffff := by
      rw [← Option.some_inj.mp hv]
      exact Nat.and_le_right
    omega
  · unfold makeContentTypeId
    rw [h1, h2]

/-- **C8 witness.** The model `("Model", "table")`, whose id evaluates to
the CRC-32 value `1171533223`. -/
theorem make_content_type_id_spec_witness :
    makeContentTypeId ⟨"Model", "table"⟩ = some 1171533223 ∧
    (1171533223 : Nat) < 2 ^ 32 := by
  have h := make_content_type_id_spec ⟨"Model", "table"⟩ ⟨"Model", "table"⟩
    (by decide) ⟨rfl, rfl⟩
  refine ⟨?_, by decide⟩
  have h1 := h.1
  rw [h1]
  decide

/-! ## C9 — `exception_as_dict` (`dbsync/wscommon.py`) -/

/-- **C9 counterexample.** The claim that the close-reason payload's JSON
serialization never exceeds 123 bytes is false: for an exception of class
`Exception` with a single 100-character argument, the fallback dictionary
serializes to 158 characters (all ASCII, hence 158 bytes). -/
theorem exception_as_dict_cap_counterexample :
    123 <
      (dumpExcDict
        (exceptionAsDict "Exception" [String.mk (List.replicate 100 'a')])).length := by
  decide

/-- **C9 (amended).** `exception_as_dict` always returns one of the two
shapes `{type, args}` or `{type: "exception", extype, args}`; the former
is returned exactly when its JSON dump stays under 124 characters (and so
fits the 123-byte close-reason limit), and otherwise the fallback carries
the comma-joined arguments truncated to 100 characters, its dump being
`49 + |escaped extype| + |escaped argstr|` characters — which can exceed
123. -/
theorem exception_as_dict_spec (exType : String) (exArgs : List String)
    (hlen : ¬ (dumpExcDict ⟨exType, none, exArgs⟩).length < 124) :
    exceptionAsDict exType exArgs =
      ⟨"exception", some exType, [(String.intercalate "," exArgs).take 100]⟩ ∧
    (dumpExcDict (exceptionAsDict exType exArgs)).length =
      49 + ((exType.data.map jsonEscapeChar).flatten).length +
        ((((String.intercalate "," exArgs).take 100).data.map jsonEscapeChar).flatten).length := by
  have hq : ∀ s : String,
      (jsonQuote s).data.length = ((s.data.map jsonEscapeChar).flatten).length + 2 := by
    intro s
    show ("\"" ++ String.mk ((s.data.map jsonEscapeChar).flatten) ++ "\"").data.length = _
    rw [String.data_append, String.data_append]
    rw [List.length_append, List.length_append]
    have hquote : ("\"".data).length = 1 := rfl
    have hmk : ((String.mk ((s.data.map jsonEscapeChar).flatten)).data).length =
        ((s.data.map jsonEscapeChar).flatten).length := rfl
    omega
  have hres : exceptionAsDict exType exArgs =
      ⟨"exception", some exType, [(String.intercalate "," exArgs).take 100]⟩ := by
    unfold exceptionAsDict
    rw [if_neg hlen]
  refine ⟨hres, ?_⟩
  rw [hres]
  have hsingle :
      String.intercalate ", " [jsonQuote ((String.intercalate "," exArgs).take 100)] =
        jsonQuote ((String.intercalate "," exArgs).take 100) := rfl
  show ("\x7b\"type\": " ++ jsonQuote "exception" ++ ", \"extype\": " ++
      jsonQuote exType ++ ", \"args\": [" ++
      String.intercalate ", "
        ([(String.intercalate "," exArgs).take 100].map jsonQuote) ++
      "]\x7d").data.length = _
  rw [List.map_cons, List.map_nil, hsingle]
  rw [String.data_append, String.data_append, String.data_append,
    String.data_append, String.data_append, String.data_append]
  simp only [List.length_append]
  rw [hq, hq, hq]
  have c2 : ((("exception" : String).data.map jsonEscapeChar).flatten).length = 9 := rfl
  simp only [c2, List.length_cons, List.length_nil]
  omega

/-- **C9 witness.** A `ValueError("boom")` stays in the short shape, whose
dump is 40 ≤ 123 characters; the 100-`a` `Exception` hits the amended
fallback equation with total length 158. -/
theorem exception_as_dict_spec_witness :
    ¬ (dumpExcDict ⟨"Exception", none, [String.mk (List.replicate 100 'a')]⟩).length < 124 ∧
    exceptionAsDict "Exception" [String.mk (List.replicate 100 'a')] =
      ⟨"exception", some "Exception",
        [(String.intercalate "," [String.mk (List.replicate 100 'a')]).take 100]⟩ := by
  refine ⟨by decide, ?_⟩
  exact (exception_as_dict_spec "Exception" [String.mk (List.replicate 100 'a')]
    (by decide)).1

/-! ## C10 — `PushMessage.islegit` short-circuits and lookup failure
(`dbsync/messages/push.py`) -/

/-- **C10.** `islegit` answers `False` without consulting the node
registry whenever the message's `key` or `node_id` is `None` (the result
is the same for every registry), and for a message whose `node_id`
matches no stored `Node` it does not answer `False` but raises
`LookupError` naming the missing node id. -/
theorem islegit_none_and_lookup (m : PushMsg) (nodes nodes' : List NodeRec)
    (nid : Nat)
    (hnone : m.key = none ∨ m.nodeId = none) :
    (islegit nodes m = .ok false ∧ islegit nodes m = islegit nodes' m) ∧
    (∀ m' : PushMsg, ∀ k, m'.key = some k → m'.nodeId = some nid →
      lookupNode nodes nid = none →
      islegit nodes m' = .error (.lookupError nid)) := by
  constructor
  · rcases hnone with h | h
    · constructor <;> simp [islegit, h]
    · rcases hk : m.key with _ | k
      · constructor <;> simp [islegit, hk]
      · constructor <;> simp [islegit, hk, h]
  · intro m' k hk hnid hlk
    simp [islegit, hk, hnid, hlk]

/-- **C10 witness.** A keyless message is rejected identically under two
different registries, and a keyed message for the unregistered node `42`
raises the lookup error naming `42`. -/
theorem islegit_none_and_lookup_witness :
    (islegit [] ⟨some 1, none, none, [], fun _ _ => none⟩ = .ok false ∧
      islegit [] ⟨some 1, none, none, [], fun _ _ => none⟩ =
        islegit [⟨1, "s"⟩] ⟨some 1, none, none, [], fun _ _ => none⟩) ∧
    islegit [] ⟨some 42, some "k", none, [], fun _ _ => none⟩ =
      .error (.lookupError 42) := by
  have h := islegit_none_and_lookup ⟨some 1, none, none, [], fun _ _ => none⟩
    [] [⟨1, "s"⟩] 42 (Or.inl rfl)
  exact ⟨h.1, h.2 ⟨some 42, some "k", none, [], fun _ _ => none⟩ "k" rfl rfl rfl⟩

/-! ## C1 — push-message signing and verification
(`dbsync/messages/push.py`) -/

/-- `portion` is a concatenation homomorphism: empty on no operations, and
each operation contributes `"&" + hex32(row_id) + "#" + content_type_id +
"#" + command`, in operation order. -/
theorem portion_cons (op : POp) (ops : List POp) :
    portion [] = "" ∧
    portion (op :: ops) =
      ("&" ++ hex32 op.rowId ++ "#" ++ Nat.repr op.contentTypeId ++ "#"
        ++ op.command.str) ++ portion ops := by
  have hgen : ∀ (l : List POp) (a : String),
      l.foldl
        (fun acc o =>
          acc ++ "&" ++ hex32 o.rowId ++ "#" ++ Nat.repr o.contentTypeId ++ "#"
            ++ o.command.str)
        a =
      a ++ l.foldl
        (fun acc o =>
          acc ++ "&" ++ hex32 o.rowId ++ "#" ++ Nat.repr o.contentTypeId ++ "#"
            ++ o.command.str)
        "" := by
    intro l
    induction l with
    | nil => intro a; simp [String.append_empty]
    | cons o rest ih =>
      intro a
      simp only [List.foldl_cons]
      rw [ih, ih ("" ++ "&" ++ hex32 o.rowId ++ "#" ++ Nat.repr o.contentTypeId
        ++ "#" ++ o.command.str)]
      generalize List.foldl _ "" rest = X
      simp only [String.append_assoc, String.empty_append]
  constructor
  · rfl
  · show List.foldl _ "" (op :: ops) = _
    simp only [List.foldl_cons]
    rw [hgen]
    rfl

/-- **C1 witness for `portion_cons`.** A two-operation portion, evaluated. -/
theorem portion_cons_witness :
    portion [⟨5, 7, .i, 0⟩, ⟨300, 9, .d, 1⟩] =
      "&00000000000000000000000000000005#7#i&0000000000000000000000000000012c#9#d" := by
  have h := portion_cons ⟨5, 7, .i, 0⟩ [⟨300, 9, .d, 1⟩]
  rw [h.2]
  decide

/-- **C1.** Signing via `set_node` with the node's secret sets the key to
the SHA-512 hex digest of `secret + portion`; `islegit` then answers
`True` for the signed message when the registry stores that node, and
answers `False` for the same message under any key that differs from the
digest in any way. -/
theorem push_signature_spec (m : PushMsg) (node : NodeRec) (nodes : List NodeRec)
    (hlookup : lookupNode nodes node.nodeId = some node) :
    (∀ (op : POp) (rest : List POp),
      portion (op :: rest) =
        ("&" ++ hex32 op.rowId ++ "#" ++ Nat.repr op.contentTypeId ++ "#"
          ++ op.command.str) ++ portion rest) ∧
    (setNode m (some node)).key =
      some (sha512HexOfString (node.secret ++ portion m.operations)) ∧
    islegit nodes (setNode m (some node)) = .ok true ∧
    (∀ k, k ≠ sha512HexOfString (node.secret ++ portion m.operations) →
      islegit nodes
        { nodeId := some node.nodeId, key := some k,
          latestVersionId := m.latestVersionId, operations := m.operations,
          payload := m.payload } = .ok false) := by
  refine ⟨fun op rest => (portion_cons op rest).2, rfl, ?_, ?_⟩
  · show islegit nodes
      ⟨some node.nodeId,
       some (sha512HexOfString (node.secret ++ portion m.operations)),
       m.latestVersionId, m.operations, m.payload⟩ = .ok true
    unfold islegit
    simp only [hlookup]
    rw [beq_iff_eq.mpr rfl]
  · intro k hk
    unfold islegit
    simp only [hlookup]
    rw [beq_eq_false_iff_ne.mpr hk]

/-- **C1 main witness.** A concrete node and one-operation message: the
signed key is the concrete SHA-512 digest, `islegit` accepts it, and
rejects the same message with the empty-string key. -/
theorem push_signature_spec_witness :
    (setNode ⟨none, none, none, [⟨5, 7, .i, 0⟩], fun _ _ => none⟩
        (some ⟨1, "s3cret"⟩)).key =
      some (sha512HexOfString ("s3cret" ++ portion [(⟨5, 7, .i, 0⟩ : POp)])) ∧
    islegit [⟨1, "s3cret"⟩]
      (setNode ⟨none, none, none, [⟨5, 7, .i, 0⟩], fun _ _ => none⟩
        (some ⟨1, "s3cret"⟩)) = .ok true ∧
    islegit [⟨1, "s3cret"⟩]
      ⟨some 1, some "", none, [⟨5, 7, .i, 0⟩], fun _ _ => none⟩ = .ok false := by
  have h := push_signature_spec ⟨none, none, none, [⟨5, 7, .i, 0⟩], fun _ _ => none⟩
    ⟨1, "s3cret"⟩ [⟨1, "s3cret"⟩] (by decide)
  exact ⟨h.2.1, h.2.2.1, h.2.2.2 "" (by decide)⟩

/-! ## C3 — the server's version check (`dbsync/server/wsserver.py`) -/

/-- **C3.** When the incoming `latest_version_id` differs from the
server's, the push applies nothing (the state is returned untouched) and
fails with exactly one of the two errors: `PushRejected` iff the server
has no version at all or the client claims a version at or beyond the
server's, `PullSuggested` iff the server has a version and the client is
behind — the message carrying `null` included. -/
theorem push_version_check (st : ServerState) (msg : PushMsg)
    (hmis : msg.latestVersionId ≠ optInt (getLatestVersionId st)) :
    ∃ e, handlePushTx st msg = (st, .error e) ∧
      (e.isPushRejected = true ↔
        (getLatestVersionId st = none ∨
          ∃ l m, getLatestVersionId st = some l ∧ msg.latestVersionId = some m ∧
            (l : Int) ≤ m)) ∧
      (e.isPullSuggested = true ↔
        ((∃ l, getLatestVersionId st = some l) ∧
          (msg.latestVersionId = none ∨
            ∃ l m, getLatestVersionId st = some l ∧ msg.latestVersionId = some m ∧
              m < (l : Int)))) := by
  rcases hlat : getLatestVersionId st with _ | l
  · rcases hmsg : msg.latestVersionId with _ | mv
    · rw [hlat, hmsg] at hmis
      exact absurd rfl hmis
    · rw [hlat, hmsg] at hmis
      refine ⟨.pushRejected (versionExc (some mv) none) none, ?_, ?_, ?_⟩
      · simp only [handlePushTx, withTransaction, handlePush, hlat, hmsg, optInt]
        rw [if_pos (show (some mv : Option Int) ≠ none by simp)]
      · simp [PushErr.isPushRejected]
      · simp [PushErr.isPullSuggested]
  · rcases hmsg : msg.latestVersionId with _ | mv
    · rw [hlat, hmsg] at hmis
      refine ⟨.pullSuggested (versionExc none (some l)), ?_, ?_, ?_⟩
      · simp only [handlePushTx, withTransaction, handlePush, hlat, hmsg, optInt]
        rw [if_pos (show (none : Option Int) ≠ some ((l : Nat) : Int) by simp)]
      · simp [PushErr.isPushRejected]
      · simp [PushErr.isPullSuggested]
    · rw [hlat, hmsg] at hmis
      simp only [optInt] at hmis
      have hne : mv ≠ (l : Int) := by
        intro h
        exact hmis (by simp [h])
      by_cases hlt : mv < (l : Int)
      · refine ⟨.pullSuggested (versionExc (some mv) (some l)), ?_, ?_, ?_⟩
        · simp only [handlePushTx, withTransaction, handlePush, hlat, hmsg, optInt]
          rw [if_pos hmis, if_pos hlt]
        · simp only [PushErr.isPushRejected]
          constructor
          · intro h
            exact absurd h (by decide)
          · rintro (h | ⟨l2, m2, hl2, hm2, hle⟩)
            · exact absurd h (by simp)
            · obtain rfl : l2 = l := by injection hl2 with h; exact h.symm
              obtain rfl : m2 = mv := by injection hm2 with h; exact h.symm
              omega
        · simp only [PushErr.isPullSuggested]
          constructor
          · intro _
            exact ⟨⟨l, rfl⟩, Or.inr ⟨l, mv, rfl, rfl, hlt⟩⟩
          · intro _
            trivial
      · refine ⟨.pushRejected (versionExc (some mv) (some l)) none, ?_, ?_, ?_⟩
        · simp only [handlePushTx, withTransaction, handlePush, hlat, hmsg, optInt]
          rw [if_pos hmis, if_neg hlt]
        · simp only [PushErr.isPushRejected]
          constructor
          · intro _
            exact Or.inr ⟨l, mv, rfl, rfl, by omega⟩
          · intro _
            trivial
        · simp only [PushErr.isPullSuggested]
          constructor
          · intro h
            exact absurd h (by decide)
          · rintro ⟨_, h | ⟨l2, m2, hl2, hm2, hlt2⟩⟩
            · exact absurd h (by simp)
            · obtain rfl : l2 = l := by injection hl2 with h; exact h.symm
              obtain rfl : m2 = mv := by injection hm2 with h; exact h.symm
              omega

/-- **C3 witness.** A server with no version rejects a push claiming
version 0 with `PushRejected`, leaving the state unchanged. -/
theorem push_version_check_witness :
    (⟨none, none, some 0, [], fun _ _ => none⟩ : PushMsg).latestVersionId ≠
      optInt (getLatestVersionId ⟨[], [], [], [], []⟩) ∧
    ∃ e, handlePushTx ⟨[], [], [], [], []⟩ ⟨none, none, some 0, [], fun _ _ => none⟩ =
        (⟨[], [], [], [], []⟩, .error e) ∧ e.isPushRejected = true := by
  refine ⟨by decide, ?_⟩
  obtain ⟨e, he, hiff, _⟩ := push_version_check ⟨[], [], [], [], []⟩
    ⟨none, none, some 0, [], fun _ _ => none⟩ (by decide)
  exact ⟨e, he, hiff.mpr (Or.inl rfl)⟩

/-! ## C4 — version creation on the server (`dbsync/server/wsserver.py`) -/

/-- **C4.** A validated push (matching version, legitimate signature,
no apply error) creates exactly one new `Version` row carrying the
message's `node_id` iff at least one operation took effect
(`post_operations ≠ []`); otherwise the version log is unchanged and the
response is `new_version_id = None`.  A push with an empty operations list
answers `None` and adds no version. -/
theorem push_version_creation (st : ServerState) (msg : PushMsg)
    (post : List (POp × Nat)) (db2 : DB)
    (hver : msg.latestVersionId = optInt (getLatestVersionId st))
    (hleg : islegit st.nodes msg = .ok true)
    (happly : applyOps msg.payload
        (msg.operations.filter fun o => st.trackedIds.contains o.contentTypeId)
        st.db = .ok (post, db2)) :
    (handlePushTx st msg).2 =
      .ok (if post = [] then none else some ((getLatestVersionId st).getD 0 + 1)) ∧
    (handlePushTx st msg).1.versions =
      st.versions ++
        (if post = [] then []
         else [⟨(getLatestVersionId st).getD 0 + 1, msg.nodeId⟩]) ∧
    (handlePushTx st msg).1.versions.length =
      st.versions.length + (if post = [] then 0 else 1) ∧
    (msg.operations = [] → post = [] ∧ (handlePushTx st msg).2 = .ok none) := by
  have hcond : ¬ msg.latestVersionId ≠ optInt (getLatestVersionId st) :=
    fun h => h hver
  have hred : handlePushTx st msg =
      (if post = [] then ({ st with db := db2 }, .ok none)
       else
        (⟨st.nodes, st.trackedIds,
          st.versions ++ [⟨(getLatestVersionId st).getD 0 + 1, msg.nodeId⟩],
          db2,
          st.oplog ++
            (sortByOrder (post.map fun pr => pr.1)).map
              fun op => (op, (getLatestVersionId st).getD 0 + 1)⟩,
         .ok (some ((getLatestVersionId st).getD 0 + 1)))) := by
    simp only [handlePushTx, withTransaction, handlePush]
    rw [if_neg hcond, hleg, happly]
    dsimp only
    by_cases hpost : post = []
    · rw [if_pos hpost, if_pos hpost]
    · rw [if_neg hpost, if_neg hpost]
  have hempty : msg.operations = [] → post = [] := by
    intro hops
    rw [hops] at happly
    simp only [List.filter_nil, applyOps] at happly
    exact (Prod.mk.injEq _ _ _ _ ▸ (Except.ok.injEq _ _ ▸ happly)).1.symm
  by_cases hpost : post = []
  · rw [hred, if_pos hpost]
    refine ⟨by simp [hpost], by simp [hpost], by simp [hpost], ?_⟩
    intro hops
    exact ⟨hpost, by simp⟩
  · rw [hred, if_neg hpost]
    refine ⟨by simp [hpost], by simp [hpost], by simp [hpost], ?_⟩
    intro hops
    exact absurd (hempty hops) hpost

/-- **C4 witness.** A fresh server, a signed one-insert push: the response
is version 1 and exactly the version row `(1, node 1)` is created; and on
the same server a signed empty push answers `None` with no version row. -/
theorem push_version_creation_witness :
    (handlePushTx ⟨[⟨1, "s3cret"⟩], [7], [], [], []⟩
        ⟨some 1, some (sha512HexOfString ("s3cret" ++ portion [⟨5, 7, .i, 0⟩])),
         none, [⟨5, 7, .i, 0⟩],
         fun ct r => if ct = 7 ∧ r = 5 then some 3 else none⟩).2 = .ok (some 1) ∧
    (handlePushTx ⟨[⟨1, "s3cret"⟩], [7], [], [], []⟩
        ⟨some 1, some (sha512HexOfString ("s3cret" ++ portion [⟨5, 7, .i, 0⟩])),
         none, [⟨5, 7, .i, 0⟩],
         fun ct r => if ct = 7 ∧ r = 5 then some 3 else none⟩).1.versions =
      [⟨1, some 1⟩] ∧
    (handlePushTx ⟨[⟨1, "s3cret"⟩], [7], [], [], []⟩
        ⟨some 1, some (sha512HexOfString ("s3cret" ++ portion ([] : List POp))),
         none, [], fun _ _ => none⟩).2 = .ok none := by
  have h1 := push_version_creation ⟨[⟨1, "s3cret"⟩], [7], [], [], []⟩
    ⟨some 1, some (sha512HexOfString ("s3cret" ++ portion [⟨5, 7, .i, 0⟩])),
     none, [⟨5, 7, .i, 0⟩],
     fun ct r => if ct = 7 ∧ r = 5 then some 3 else none⟩
    [(⟨5, 7, .i, 0⟩, 3)] [((7, 5), 3)] rfl (by decide) (by decide)
  have h2 := push_version_creation ⟨[⟨1, "s3cret"⟩], [7], [], [], []⟩
    ⟨some 1, some (sha512HexOfString ("s3cret" ++ portion ([] : List POp))),
     none, [], fun _ _ => none⟩
    [] [] rfl (by decide) (by decide)
  refine ⟨h1.1.trans (by decide), (h1.2.1).trans (by decide), ?_⟩
  exact (h2.2.2.2 rfl).2

/-! ## C5 — atomic rollback on a failed apply
(`dbsync/server/wsserver.py` with `dbsync/core.py`'s transaction wrapper) -/

/-- **C5.** If applying any operation of a validated push raises an
`OperationError`, the transaction wrapper rolls everything back — the
returned server state is exactly the initial one, so no row change
persists and no `Version` row is created — and the reply is
`PushRejected("at least one operation couldn't be performed")` carrying
the cause. -/
theorem push_rollback (st : ServerState) (msg : PushMsg) (e : OpErr)
    (hver : msg.latestVersionId = optInt (getLatestVersionId st))
    (hleg : islegit st.nodes msg = .ok true)
    (happly : applyOps msg.payload
        (msg.operations.filter fun o => st.trackedIds.contains o.contentTypeId)
        st.db = .error e) :
    handlePushTx st msg =
      (st, .error (.pushRejected "at least one operation couldn't be performed"
        (some e))) := by
  have hcond : ¬ msg.latestVersionId ≠ optInt (getLatestVersionId st) :=
    fun h => h hver
  simp only [handlePushTx, withTransaction, handlePush]
  rw [if_neg hcond, hleg, happly]

/-- **C5 witness.** A signed two-operation push whose first operation
succeeds and whose second hits an existing, different row: the state comes
back unchanged (the first operation's effect does not persist) and the
reply carries the `insertExisting` cause. -/
theorem push_rollback_witness :
    handlePushTx ⟨[⟨1, "s3cret"⟩], [7], [], [((7, 5), 9)], []⟩
        ⟨some 1,
         some (sha512HexOfString
           ("s3cret" ++ portion [⟨6, 7, .i, 0⟩, ⟨5, 7, .i, 1⟩])),
         none, [⟨6, 7, .i, 0⟩, ⟨5, 7, .i, 1⟩],
         fun ct r => if ct = 7 ∧ (r = 5 ∨ r = 6) then some 3 else none⟩ =
      (⟨[⟨1, "s3cret"⟩], [7], [], [((7, 5), 9)], []⟩,
       .error (.pushRejected "at least one operation couldn't be performed"
         (some (.insertExisting 7 5)))) := by
  exact push_rollback ⟨[⟨1, "s3cret"⟩], [7], [], [((7, 5), 9)], []⟩
    ⟨some 1,
     some (sha512HexOfString ("s3cret" ++ portion [⟨6, 7, .i, 0⟩, ⟨5, 7, .i, 1⟩])),
     none, [⟨6, 7, .i, 0⟩, ⟨5, 7, .i, 1⟩],
     fun ct r => if ct = 7 ∧ (r = 5 ∨ r = 6) then some 3 else none⟩
    (.insertExisting 7 5) rfl (by decide) (by decide)

/-! ## C6 — the merge's direct-conflict decision table
(`dbsync/client/pull.py`) -/

/-- **C6.** For a pulled operation `p` whose direct-conflict set holds the
single local operation `l` (local operations are compressed, so at most
one can share `p`'s row):

* `p.command = 'd'` forces `can_perform = false` (the delete is not
  applied);
* `('u','u')`: the local change is kept and nothing else happens;
* `('u','d')`: `p.command` is rewritten to `'i'` and `l` is purged;
* `('d','u')`: `l.command` is rewritten to `'i'`, `p` is marked
  `reverted`, and `l` stays;
* `('d','d')`: `l` is purged;

and `purgelocal` removes the local operation from the local operation log
and from every one of the four conflict sets still being iterated. -/
theorem merge_direct_conflicts (st : MergeState) (pIdx : Nat) (p : PullOpM)
    (l : LocalOp)
    (hextract : extractDirect st pIdx = [l.lid])
    (hfind : st.localOps.find? (fun x => x.lid == l.lid) = some l) :
    (p.command = .d → (processDirect st pIdx p).2.1 = false) ∧
    (p.command = .u → l.command = .u →
      processDirect st pIdx p = (p.command, false, false, st)) ∧
    (p.command = .u → l.command = .d →
      processDirect st pIdx p = (.i, true, false, purgelocal st l.lid)) ∧
    (p.command = .d → l.command = .u →
      processDirect st pIdx p = (p.command, false, true, setLocalCommand st l.lid .i)) ∧
    (p.command = .d → l.command = .d →
      processDirect st pIdx p = (p.command, false, false, purgelocal st l.lid)) ∧
    (∀ lid,
      ((purgelocal st lid).localOps.all fun x => x.lid ≠ lid) = true ∧
      ((purgelocal st lid).direct.all fun pr => pr.2 ≠ lid) = true ∧
      ((purgelocal st lid).dependency.all fun pr => pr.2 ≠ lid) = true ∧
      ((purgelocal st lid).reversedDependency.all fun pr => pr.2 ≠ lid) = true ∧
      ((purgelocal st lid).insertConflicts.all fun pr => pr.2 ≠ lid) = true) := by
  have hproc : processDirect st pIdx p =
      directLoop st p.command (¬ p.command = .d) false [l.lid] := by
    unfold processDirect
    rw [hextract]
    rfl
  have hpurge : ∀ lid,
      ((purgelocal st lid).localOps.all fun x => x.lid ≠ lid) = true ∧
      ((purgelocal st lid).direct.all fun pr => pr.2 ≠ lid) = true ∧
      ((purgelocal st lid).dependency.all fun pr => pr.2 ≠ lid) = true ∧
      ((purgelocal st lid).reversedDependency.all fun pr => pr.2 ≠ lid) = true ∧
      ((purgelocal st lid).insertConflicts.all fun pr => pr.2 ≠ lid) = true := by
    intro lid
    refine ⟨?_, ?_, ?_, ?_, ?_⟩ <;>
      simp [purgelocal, List.all_eq_true, List.mem_filter]
  refine ⟨?_, ?_, ?_, ?_, ?_, hpurge⟩
  · intro hp
    rw [hproc, hp]
    rcases hl : l.command with _ | _ | _ <;>
      simp [directLoop, hfind, hl]
  · intro hp hl
    rw [hproc, hp]
    simp [directLoop, hfind, hl]
  · intro hp hl
    rw [hproc, hp]
    simp [directLoop, hfind, hl]
  · intro hp hl
    rw [hproc, hp]
    simp [directLoop, hfind, hl]
  · intro hp hl
    rw [hproc, hp]
    simp [directLoop, hfind, hl]

/-- **C6 witness.** A concrete merge state with one local delete on row
`(7, 5)` (id 3) listed in the direct and dependency sets: for the pulled
update of the same row, the pull command is rewritten to `'i'` and local
`3` disappears from the log and from both conflict sets. -/
theorem merge_direct_conflicts_witness :
    processDirect ⟨[⟨3, 5, 7, .d, 0⟩], [(0, 3)], [(1, 3)], [], []⟩ 0 ⟨5, 7, .u⟩ =
      (.i, true, false,
        purgelocal ⟨[⟨3, 5, 7, .d, 0⟩], [(0, 3)], [(1, 3)], [], []⟩ 3) ∧
    purgelocal ⟨[⟨3, 5, 7, .d, 0⟩], [(0, 3)], [(1, 3)], [], []⟩ 3 =
      ⟨[], [], [], [], []⟩ := by
  have h := merge_direct_conflicts ⟨[⟨3, 5, 7, .d, 0⟩], [(0, 3)], [(1, 3)], [], []⟩
    0 ⟨5, 7, .u⟩ ⟨3, 5, 7, .d, 0⟩ (by decide) (by decide)
  exact ⟨h.2.2.1 rfl rfl, by decide⟩

/-! ## C7 — the column codecs round-trip (`dbsync/messages/codecs.py`) -/

theorem b64Value_b64Char : ∀ n < 64, b64Value (b64Char n) = n := by decide

theorem b64Char_ne_pad : ∀ n < 64, b64Char n ≠ '=' := by decide

theorem b64_roundtrip (bs : List Nat) (h : ∀ b ∈ bs, b < 256) :
    b64decode (b64encode bs) = bs := by
  induction bs using b64encode.induct with
  | case1 => rfl
  | case2 b1 =>
    have hb1 : b1 < 256 := h b1 (by simp)
    simp only [b64encode, b64decode]
    rw [if_pos True.intro, if_pos True.intro]
    rw [b64Value_b64Char _ (by omega), b64Value_b64Char _ (by omega)]
    simp only [List.cons.injEq, and_true]
    omega
  | case3 b1 b2 =>
    have hb1 : b1 < 256 := h b1 (by simp)
    have hb2 : b2 < 256 := h b2 (by simp)
    simp only [b64encode, b64decode]
    rw [if_pos True.intro, if_neg (b64Char_ne_pad _ (by omega))]
    rw [b64Value_b64Char _ (by omega), b64Value_b64Char _ (by omega),
      b64Value_b64Char _ (by omega)]
    simp only [List.cons.injEq, and_true]
    omega
  | case4 b1 b2 b3 rest ih =>
    have hb1 : b1 < 256 := h b1 (by simp)
    have hb2 : b2 < 256 := h b2 (by simp)
    have hb3 : b3 < 256 := h b3 (by simp)
    have hrest : ∀ b ∈ rest, b < 256 := fun b hb => h b (by simp [hb])
    simp only [b64encode, b64decode]
    rw [if_neg (b64Char_ne_pad _ (by omega))]
    rw [b64Value_b64Char _ (by omega), b64Value_b64Char _ (by omega),
      b64Value_b64Char _ (by omega), b64Value_b64Char _ (by omega)]
    simp only [List.cons.injEq]
    refine ⟨by omega, by omega, by omega, ih hrest⟩

theorem digitsAuxRev_lt10 : ∀ fuel n d, d ∈ digitsAuxRev fuel n → d < 10 := by
  intro fuel
  induction fuel with
  | zero => intro n d hd; simp [digitsAuxRev] at hd
  | succ f ih =>
    intro n d hd
    match n with
    | 0 => simp [digitsAuxRev] at hd
    | m + 1 =>
      simp only [digitsAuxRev, List.mem_cons] at hd
      rcases hd with h | h
      · omega
      · exact ih _ _ h

theorem digitsToNat_snoc (ds : List Nat) (d : Nat) :
    digitsToNat (ds ++ [d]) = digitsToNat ds * 10 + d := by
  unfold digitsToNat
  rw [List.foldl_append]
  rfl

theorem digitsAuxRev_val : ∀ fuel n, n ≤ fuel →
    digitsToNat ((digitsAuxRev fuel n).reverse) = n := by
  intro fuel
  induction fuel with
  | zero =>
    intro n hn
    obtain rfl : n = 0 := by omega
    rfl
  | succ f ih =>
    intro n hn
    match n with
    | 0 => rfl
    | m + 1 =>
      show digitsToNat (((m + 1) % 10 :: digitsAuxRev f ((m + 1) / 10)).reverse) = m + 1
      rw [List.reverse_cons, digitsToNat_snoc, ih ((m + 1) / 10) (by omega)]
      omega

theorem coeffDigits_val (c : Nat) : digitsToNat (coeffDigits c) = c := by
  unfold coeffDigits
  by_cases hc : c = 0
  · rw [if_pos hc, hc]; rfl
  · rw [if_neg hc]
    exact digitsAuxRev_val c c le_rfl

theorem coeffDigits_lt10 (c : Nat) : ∀ d ∈ coeffDigits c, d < 10 := by
  unfold coeffDigits
  by_cases hc : c = 0
  · rw [if_pos hc]; intro d hd; simp at hd; omega
  · rw [if_neg hc]
    intro d hd
    exact digitsAuxRev_lt10 c c d (List.mem_reverse.mp hd)

theorem coeffDigits_ne_nil (c : Nat) : coeffDigits c ≠ [] := by
  unfold coeffDigits
  by_cases hc : c = 0
  · rw [if_pos hc]; simp
  · rw [if_neg hc]
    simp only [ne_eq, List.reverse_eq_nil_iff]
    match hfe : c, hc with
    | m + 1, _ => simp [digitsAuxRev]

theorem digitsToNat_zeros (k : Nat) (ds : List Nat) :
    digitsToNat (List.replicate k 0 ++ ds) = digitsToNat ds := by
  induction k with
  | zero => rfl
  | succ n ih =>
    show digitsToNat (0 :: (List.replicate n 0 ++ ds)) = _
    unfold digitsToNat at ih ⊢
    simpa using ih

theorem digitChar_facts : ∀ d < 10,
    isDigitChar (digitChar d) = true ∧ (digitChar d).toNat - 48 = d ∧
    digitChar d ≠ '-' ∧ digitChar d ≠ '+' ∧ digitChar d ≠ '.' ∧
    digitChar d ≠ 'E' ∧ digitChar d ≠ 'e' := by decide

theorem spanDigits_digits (ds : List Nat) (rest : List Char)
    (hds : ∀ d ∈ ds, d < 10)
    (hrest : ∀ c, rest.head? = some c → isDigitChar c = false) :
    spanDigits (digitsStr ds ++ rest) = (ds, rest) := by
  induction ds with
  | nil =>
    simp only [digitsStr, List.map_nil, List.nil_append]
    cases rest with
    | nil => rfl
    | cons c cs =>
      have hc := hrest c rfl
      simp [spanDigits, hc]
  | cons d ds ih =>
    have hd : d < 10 := hds d (by simp)
    have hfact := digitChar_facts d hd
    simp only [digitsStr, List.map_cons, List.cons_append]
    show spanDigits (digitChar d :: _) = _
    simp only [spanDigits]
    rw [if_pos hfact.1]
    have hih := ih (fun x hx => hds x (by simp [hx]))
    unfold digitsStr at hih
    rw [hih]
    simp [hfact.2.1]

theorem parseSign_cons (neg : Bool) (cs : List Char)
    (h : ∀ c, cs.head? = some c → c ≠ '-' ∧ c ≠ '+') :
    parseSign ((if neg then ['-'] else []) ++ cs) = (neg, cs) := by
  cases neg with
  | true => simp [parseSign]
  | false =>
    simp only [if_neg Bool.false_ne_true, List.nil_append]
    cases cs with
    | nil => rfl
    | cons c cs2 =>
      have hc := h c rfl
      simp [parseSign, hc.1, hc.2]

theorem parseFrac_dot (cs : List Char) : parseFrac ('.' :: cs) = spanDigits cs := by
  simp [parseFrac]

theorem parseFrac_nodot (cs : List Char)
    (h : ∀ c, cs.head? = some c → c ≠ '.') :
    parseFrac cs = ([], cs) := by
  cases cs with
  | nil => rfl
  | cons c cs2 =>
    have hc := h c rfl
    simp [parseFrac, hc]

theorem parseSign_plusRepr (e : Int) :
    parseSign (plusRepr e).data =
      (if e < 0 then true else false, digitsStr (coeffDigits e.natAbs)) := by
  unfold plusRepr
  by_cases he : e < 0
  · rw [if_pos he, if_pos he]
    show parseSign (("-" ++ String.mk (digitsStr (coeffDigits e.natAbs))).data) = _
    rw [String.data_append]
    show parseSign ('-' :: _) = _
    simp [parseSign]
  · rw [if_neg he, if_neg he]
    show parseSign (("+" ++ String.mk (digitsStr (coeffDigits e.natAbs))).data) = _
    rw [String.data_append]
    show parseSign ('+' :: _) = _
    simp [parseSign]

theorem decStr_data (d : PyDecimal) :
    (decStr d).data =
      (if d.neg then ['-'] else []) ++ digitsStr (decStrParts d).1 ++
      (if (decStrParts d).2.1 = [] then []
       else '.' :: digitsStr (decStrParts d).2.1) ++
      (if (decStrParts d).2.2 = 0 then []
       else 'E' :: (plusRepr (decStrParts d).2.2).data) := by
  unfold decStr
  have hmk : ∀ l : List Char, (String.mk l).data = l := fun _ => rfl
  by_cases hneg : d.neg <;> by_cases hfrac : (decStrParts d).2.1 = [] <;>
    by_cases hexp : (decStrParts d).2.2 = 0 <;>
    simp [hneg, hfrac, hexp, String.data_append, hmk]

theorem decParse_assembled (neg : Bool) (idigs fdigs : List Nat) (e : Int)
    (hi10 : ∀ d ∈ idigs, d < 10) (hf10 : ∀ d ∈ fdigs, d < 10)
    (hne : idigs ≠ []) :
    decParse (String.mk ((if neg then ['-'] else []) ++ digitsStr idigs ++
      (if fdigs = [] then [] else '.' :: digitsStr fdigs) ++
      (if e = 0 then [] else 'E' :: (plusRepr e).data))) =
      some ⟨neg, digitsToNat (idigs ++ fdigs),
            (if e = 0 then 0 else e) - fdigs.length⟩ := by
  have hdata : (String.mk ((if neg then ['-'] else []) ++ digitsStr idigs ++
      (if fdigs = [] then [] else '.' :: digitsStr fdigs) ++
      (if e = 0 then [] else 'E' :: (plusRepr e).data))).data =
      (if neg then ['-'] else []) ++ (digitsStr idigs ++
      ((if fdigs = [] then [] else '.' :: digitsStr fdigs) ++
      (if e = 0 then [] else 'E' :: (plusRepr e).data))) := by
    show (if neg then ['-'] else []) ++ digitsStr idigs ++ _ ++ _ = _
    simp [List.append_assoc]
  -- the tail after the integer digits, and its head shape
  have hheadtail : ∀ c, ((if fdigs = [] then [] else '.' :: digitsStr fdigs) ++
      (if e = 0 then [] else 'E' :: (plusRepr e).data)).head? = some c →
      isDigitChar c = false ∧ c ≠ '-' ∧ c ≠ '+' := by
    intro c hc
    by_cases hf : fdigs = [] <;> by_cases he : e = 0 <;>
      simp [hf, he] at hc <;> subst hc <;> decide
  -- head of the assembled body is a digit character
  obtain ⟨d0, ds0, hid⟩ : ∃ d0 ds0, idigs = d0 :: ds0 := by
    cases idigs with
    | nil => exact absurd rfl hne
    | cons a b => exact ⟨a, b, rfl⟩
  unfold decParse
  rw [hdata]
  have hsign : parseSign ((if neg then ['-'] else []) ++ (digitsStr idigs ++
      ((if fdigs = [] then [] else '.' :: digitsStr fdigs) ++
      (if e = 0 then [] else 'E' :: (plusRepr e).data)))) =
      (neg, digitsStr idigs ++
      ((if fdigs = [] then [] else '.' :: digitsStr fdigs) ++
      (if e = 0 then [] else 'E' :: (plusRepr e).data))) := by
    apply parseSign_cons
    intro c hc
    rw [hid] at hc
    have hd0 : d0 < 10 := hi10 d0 (by rw [hid]; simp)
    have := digitChar_facts d0 hd0
    simp only [digitsStr, List.map_cons, List.cons_append, List.head?_cons,
      Option.some.injEq] at hc
    subst hc
    exact ⟨this.2.2.1, this.2.2.2.1⟩
  rw [hsign]
  dsimp only
  have hspan : spanDigits (digitsStr idigs ++
      ((if fdigs = [] then [] else '.' :: digitsStr fdigs) ++
      (if e = 0 then [] else 'E' :: (plusRepr e).data))) =
      (idigs, (if fdigs = [] then [] else '.' :: digitsStr fdigs) ++
      (if e = 0 then [] else 'E' :: (plusRepr e).data)) := by
    apply spanDigits_digits _ _ hi10
    intro c hc
    exact (hheadtail c hc).1
  rw [hspan]
  dsimp only
  have hexphead : ∀ c, ((if e = 0 then [] else 'E' :: (plusRepr e).data) :
      List Char).head? = some c → isDigitChar c = false ∧ c ≠ '.' := by
    intro c hc
    by_cases he : e = 0 <;> simp [he] at hc <;> subst hc <;> decide
  have hfrac : parseFrac ((if fdigs = [] then [] else '.' :: digitsStr fdigs) ++
      (if e = 0 then [] else 'E' :: (plusRepr e).data)) =
      (fdigs, (if e = 0 then [] else 'E' :: (plusRepr e).data)) := by
    by_cases hf : fdigs = []
    · rw [if_pos hf, List.nil_append, hf]
      apply parseFrac_nodot
      intro c hc
      exact (hexphead c hc).2
    · rw [if_neg hf, List.cons_append, parseFrac_dot]
      apply spanDigits_digits _ _ hf10
      intro c hc
      exact (hexphead c hc).1
  rw [hfrac]
  dsimp only
  have hlen : ¬ (idigs.length + fdigs.length = 0) := by
    rw [hid]
    simp
  rw [if_neg hlen]
  by_cases he : e = 0
  · rw [if_pos he, if_pos he,
      show (0 : Int) - (fdigs.length : Int) = -(fdigs.length : Int) by omega]
  · rw [if_neg he, if_neg he]
    show (if ('E' : Char) = 'E' ∨ ('E' : Char) = 'e' then _ else _) = _
    rw [if_pos (Or.inl rfl)]
    rw [parseSign_plusRepr]
    have hspan2 : spanDigits (digitsStr (coeffDigits e.natAbs)) =
        (coeffDigits e.natAbs, []) := by
      rw [← List.append_nil (digitsStr (coeffDigits e.natAbs))]
      exact spanDigits_digits _ _ (coeffDigits_lt10 _) (by simp)
    rw [hspan2]
    rw [if_neg (by simp [coeffDigits_ne_nil e.natAbs])]
    have hval : digitsToNat (coeffDigits e.natAbs) = e.natAbs := coeffDigits_val _
    by_cases hneg2 : e < 0
    · rw [if_pos hneg2]
      simp only [if_pos rfl]
      rw [hval]
      simp only [Option.some.injEq, PyDecimal.mk.injEq, true_and, if_true,
        Bool.false_eq_true, if_false]
      omega
    · rw [if_neg hneg2]
      simp only
      rw [hval]
      simp only [Option.some.injEq, PyDecimal.mk.injEq, true_and, if_true,
        Bool.false_eq_true, if_false]
      omega

theorem decStrParts_props (d : PyDecimal) :
    (∀ x ∈ (decStrParts d).1, x < 10) ∧ (∀ x ∈ (decStrParts d).2.1, x < 10) ∧
    (decStrParts d).1 ≠ [] ∧
    digitsToNat ((decStrParts d).1 ++ (decStrParts d).2.1) = d.coeff ∧
    (if (decStrParts d).2.2 = 0 then 0 else (decStrParts d).2.2) -
      ((decStrParts d).2.1.length : Int) = d.exp := by
  have h10 := coeffDigits_lt10 d.coeff
  have hnn := coeffDigits_ne_nil d.coeff
  have hval := coeffDigits_val d.coeff
  have hL1 : 1 ≤ (coeffDigits d.coeff).length := by
    cases hc : coeffDigits d.coeff with
    | nil => exact absurd hc hnn
    | cons a b => simp
  have hz0 : ∀ k ds, digitsToNat ([0] ++ (List.replicate k 0 ++ ds)) = digitsToNat ds := by
    intro k ds
    have hrep : ([0] ++ (List.replicate k 0 ++ ds) : List Nat) =
        List.replicate (k + 1) 0 ++ ds := by
      simp [List.replicate_succ]
    rw [hrep, digitsToNat_zeros]
  dsimp only [decStrParts]
  by_cases hmode : d.exp ≤ 0 ∧ -6 < d.exp + ((coeffDigits d.coeff).length : Int)
  · rw [if_pos hmode]
    by_cases hdp : d.exp + ((coeffDigits d.coeff).length : Int) ≤ 0
    · rw [if_pos hdp]
      dsimp only
      refine ⟨?_, ?_, by simp, ?_, ?_⟩
      · intro x hx
        simp at hx
        omega
      · intro x hx
        rcases List.mem_append.mp hx with h | h
        · have := List.eq_of_mem_replicate h
          omega
        · exact h10 x h
      · rw [hz0, hval]
      · rw [sub_self, if_pos rfl]
        simp only [List.length_append, List.length_replicate]
        push_cast
        omega
    · rw [if_neg hdp]
      by_cases hdig : ((coeffDigits d.coeff).length : Int) ≤
          d.exp + ((coeffDigits d.coeff).length : Int)
      · rw [if_pos hdig]
        dsimp only
        refine ⟨?_, by simp, ?_, ?_, ?_⟩
        · intro x hx
          rcases List.mem_append.mp hx with h | h
          · exact h10 x h
          · have := List.eq_of_mem_replicate h
            omega
        · intro h
          exact hnn (List.append_eq_nil.mp h).1
        · rw [show (d.exp + ((coeffDigits d.coeff).length : Int) -
              ((coeffDigits d.coeff).length : Int)).toNat = 0 by omega]
          rw [List.replicate_zero, List.append_nil, List.append_nil, hval]
        · rw [sub_self, if_pos rfl]
          simp only [List.length_nil]
          omega
      · rw [if_neg hdig]
        dsimp only
        refine ⟨?_, ?_, ?_, ?_, ?_⟩
        · intro x hx
          exact h10 x (List.mem_of_mem_take hx)
        · intro x hx
          exact h10 x (List.mem_of_mem_drop hx)
        · intro h
          have := congrArg List.length h
          simp only [List.length_take, List.length_nil] at this
          omega
        · rw [List.take_append_drop, hval]
        · rw [sub_self, if_pos rfl]
          simp only [List.length_drop]
          push_cast
          omega
  · rw [if_neg hmode]
    rw [if_neg (show ¬ ((1 : Int) ≤ 0) by norm_num)]
    by_cases hdig : ((coeffDigits d.coeff).length : Int) ≤ 1
    · rw [if_pos hdig]
      dsimp only
      have hL : (coeffDigits d.coeff).length = 1 := by omega
      have hz : ((1 : Int) - ((coeffDigits d.coeff).length : Int)).toNat = 0 := by
        omega
      refine ⟨?_, by simp, ?_, ?_, ?_⟩
      · intro x hx
        rcases List.mem_append.mp hx with h | h
        · exact h10 x h
        · have := List.eq_of_mem_replicate h
          omega
      · intro h
        exact hnn (List.append_eq_nil.mp h).1
      · rw [hz, List.replicate_zero, List.append_nil, List.append_nil, hval]
      · have he : ¬ (d.exp + ((coeffDigits d.coeff).length : Int) - 1 = 0) := by
          intro h
          exact hmode ⟨by omega, by omega⟩
        rw [if_neg he]
        simp only [List.length_nil]
        omega
    · rw [if_neg hdig]
      dsimp only
      refine ⟨?_, ?_, ?_, ?_, ?_⟩
      · intro x hx
        exact h10 x (List.mem_of_mem_take hx)
      · intro x hx
        exact h10 x (List.mem_of_mem_drop hx)
      · intro h
        have := congrArg List.length h
        simp only [List.length_take, List.length_nil] at this
        omega
      · rw [List.take_append_drop, hval]
      · have he : ¬ (d.exp + ((coeffDigits d.coeff).length : Int) - 1 = 0) := by
          intro h
          exact hmode ⟨by omega, by omega⟩
        rw [if_neg he]
        simp only [List.length_drop]
        push_cast
        omega

theorem decParse_decStr (d : PyDecimal) : decParse (decStr d) = some d := by
  obtain ⟨h1, h2, h3, h4, h5⟩ := decStrParts_props d
  have heta : decStr d = String.mk ((decStr d).data) := rfl
  rw [heta, decStr_data d]
  rw [decParse_assembled d.neg (decStrParts d).1 (decStrParts d).2.1
    (decStrParts d).2.2 h1 h2 h3]
  rw [h4]
  rw [show ((if (decStrParts d).2.2 = 0 then 0 else (decStrParts d).2.2) -
      ((decStrParts d).2.1.length : Int)) = d.exp from h5]

/-- **C7.** For every tracked column type and every well-formed column
value of that type, decoding the encoded value returns the value:
dates go out as `[y,m,d]`, datetimes as `[y,m,d,h,mi,s,us]`, times as
`[h,mi,s,us]`, binary columns as standard base-64, decimal `Numeric`
columns as decimal strings, everything else unchanged, and
`decode(t)(encode(t)(x)) = x` throughout. -/
theorem codec_roundtrip (t : ColType) (v : PyValue) (hwf : wfValue t v) :
    ∃ j, encodeValue t v = some j ∧ decodeValue t j = some v := by
  cases t with
  | date =>
    cases v with
    | pdate y m dd =>
      refine ⟨.plist [y, m, dd], rfl, ?_⟩
      have hv : validDate y m dd = true := hwf
      simp [decodeValue, hv]
    | pdatetime y m dd h mi sec us => exact absurd hwf (by simp [wfValue])
    | ptime h mi sec us => exact absurd hwf (by simp [wfValue])
    | pbytes bs => exact absurd hwf (by simp [wfValue])
    | pdecimal dec => exact absurd hwf (by simp [wfValue])
    | plist l => exact absurd hwf (by simp [wfValue])
    | pstr ss => exact absurd hwf (by simp [wfValue])
    | pint n => exact absurd hwf (by simp [wfValue])
  | datetime =>
    cases v with
    | pdatetime y m dd h mi sec us =>
      refine ⟨.plist [y, m, dd, h, mi, sec, us], rfl, ?_⟩
      obtain ⟨hd, ht⟩ : validDate y m dd = true ∧ validTime h mi sec us = true := hwf
      simp [decodeValue, hd, ht]
    | pdate y m dd => exact absurd hwf (by simp [wfValue])
    | ptime h mi sec us => exact absurd hwf (by simp [wfValue])
    | pbytes bs => exact absurd hwf (by simp [wfValue])
    | pdecimal dec => exact absurd hwf (by simp [wfValue])
    | plist l => exact absurd hwf (by simp [wfValue])
    | pstr ss => exact absurd hwf (by simp [wfValue])
    | pint n => exact absurd hwf (by simp [wfValue])
  | time =>
    cases v with
    | ptime h mi sec us =>
      refine ⟨.plist [h, mi, sec, us], rfl, ?_⟩
      have ht : validTime h mi sec us = true := hwf
      simp [decodeValue, ht]
    | pdate y m dd => exact absurd hwf (by simp [wfValue])
    | pdatetime y m dd h mi sec us => exact absurd hwf (by simp [wfValue])
    | pbytes bs => exact absurd hwf (by simp [wfValue])
    | pdecimal dec => exact absurd hwf (by simp [wfValue])
    | plist l => exact absurd hwf (by simp [wfValue])
    | pstr ss => exact absurd hwf (by simp [wfValue])
    | pint n => exact absurd hwf (by simp [wfValue])
  | largeBinary =>
    cases v with
    | pbytes bs =>
      refine ⟨.pstr (String.mk (b64encode bs)), rfl, ?_⟩
      have hb : ∀ b ∈ bs, b < 256 := hwf
      show decodeValue ColType.largeBinary (PyValue.pstr (String.mk (b64encode bs))) =
        some (PyValue.pbytes bs)
      simp only [decodeValue]
      rw [b64_roundtrip bs hb]
    | pdate y m dd => exact absurd hwf (by simp [wfValue])
    | pdatetime y m dd h mi sec us => exact absurd hwf (by simp [wfValue])
    | ptime h mi sec us => exact absurd hwf (by simp [wfValue])
    | pdecimal dec => exact absurd hwf (by simp [wfValue])
    | plist l => exact absurd hwf (by simp [wfValue])
    | pstr ss => exact absurd hwf (by simp [wfValue])
    | pint n => exact absurd hwf (by simp [wfValue])
  | numeric asdec =>
    cases asdec with
    | true =>
      cases v with
      | pdecimal dec =>
        refine ⟨.pstr (decStr dec), rfl, ?_⟩
        show ((decParse (decStr dec)).map PyValue.pdecimal) = _
        rw [decParse_decStr dec]
        rfl
      | pdate y m dd => exact absurd hwf (by simp [wfValue])
      | pdatetime y m dd h mi sec us => exact absurd hwf (by simp [wfValue])
      | ptime h mi sec us => exact absurd hwf (by simp [wfValue])
      | pbytes bs => exact absurd hwf (by simp [wfValue])
      | plist l => exact absurd hwf (by simp [wfValue])
      | pstr ss => exact absurd hwf (by simp [wfValue])
      | pint n => exact absurd hwf (by simp [wfValue])
    | false => exact ⟨v, rfl, by cases v <;> rfl⟩
  | other => exact ⟨v, rfl, by cases v <;> rfl⟩

/-- **C7 witness.** The round trip evaluated at a leap-day date, a
three-byte binary value, and the decimal `-1.23`. -/
theorem codec_roundtrip_witness :
    (∃ j, encodeValue .date (.pdate 2024 2 29) = some j ∧
      decodeValue .date j = some (.pdate 2024 2 29)) ∧
    (∃ j, encodeValue .largeBinary (.pbytes [0, 251, 255]) = some j ∧
      decodeValue .largeBinary j = some (.pbytes [0, 251, 255])) ∧
    (∃ j, encodeValue (.numeric true) (.pdecimal ⟨true, 123, -2⟩) = some j ∧
      decodeValue (.numeric true) j = some (.pdecimal ⟨true, 123, -2⟩)) := by
  refine ⟨codec_roundtrip .date (.pdate 2024 2 29)
      (by show validDate 2024 2 29 = true; decide),
    codec_roundtrip .largeBinary (.pbytes [0, 251, 255]) ?_,
    codec_roundtrip (.numeric true) (.pdecimal ⟨true, 123, -2⟩) trivial⟩
  intro b hb
  simp at hb
  omega

/-! ## C2: compression (modelled from the spec) -/

theorem dbGet_nil (j : Nat × Nat) : dbGet ([] : DB) j = none := rfl

theorem dbGet_cons (e : (Nat × Nat) × Nat) (db : DB) (j : Nat × Nat) :
    dbGet (e :: db) j = if e.1 == j then some e.2 else dbGet db j := by
  cases h : (e.1 == j) with
  | true => simp [dbGet, List.find?_cons, h]
  | false => simp [dbGet, List.find?_cons, h]

theorem dbGet_set (db : DB) (k j : Nat × Nat) (v : Nat) :
    dbGet (dbSet db k v) j = if j = k then some v else dbGet db j := by
  induction db with
  | nil =>
    show dbGet [(k, v)] j = _
    rw [dbGet_cons]
    by_cases hjk : j = k
    · subst hjk
      simp
    · have : (k == j) = false := by
        simp only [beq_eq_false_iff_ne]
        exact fun h => hjk h.symm
      rw [this, if_neg hjk]
      rfl
  | cons e rest ih =>
    obtain ⟨ek, ev⟩ := e
    show dbGet (if (ek, ev).1 == k then (k, v) :: rest
      else (ek, ev) :: dbSet rest k v) j = _
    by_cases hek : ((ek, ev).1 == k) = true
    · rw [if_pos hek]
      have hek2 : ek = k := by simpa using hek
      subst hek2
      rw [dbGet_cons, dbGet_cons]
      by_cases hjk : j = ek
      · subst hjk
        simp
      · have h1 : (ek == j) = false := by
          simp only [beq_eq_false_iff_ne]
          exact fun h => hjk h.symm
        rw [h1, if_neg hjk]
        simp
    · rw [if_neg hek]
      rw [dbGet_cons, dbGet_cons, ih]
      have hekne : ek ≠ k := by simpa using hek
      by_cases hej : ((ek, ev).1 == j) = true
      · have hej2 : ek = j := by simpa using hej
        subst hej2
        rw [if_pos hej, if_pos hej]
        rw [if_neg (by simpa using hekne : ¬ ek = k)]
      · rw [if_neg hej, if_neg hej]

theorem dbGet_del (db : DB) (k j : Nat × Nat) :
    dbGet (dbDel db k) j = if j = k then none else dbGet db j := by
  induction db with
  | nil =>
    show dbGet [] j = _
    by_cases hjk : j = k <;> simp [dbGet_nil, hjk]
  | cons e rest ih =>
    obtain ⟨ek, ev⟩ := e
    show dbGet (if (ek, ev).1 == k then dbDel rest k
      else (ek, ev) :: dbDel rest k) j = _
    by_cases hek : ((ek, ev).1 == k) = true
    · rw [if_pos hek, ih]
      have hek2 : ek = k := by simpa using hek
      subst hek2
      rw [dbGet_cons]
      by_cases hjk : j = ek
      · rw [if_pos hjk, if_pos hjk]
      · have h1 : (ek == j) = false := by
          simp only [beq_eq_false_iff_ne]
          exact fun h => hjk h.symm
        rw [if_neg hjk, if_neg hjk, h1]
        simp
    · rw [if_neg hek, dbGet_cons, dbGet_cons, ih]
      by_cases hej : ((ek, ev).1 == j) = true
      · have hej2 : ek = j := by simpa using hej
        have hjk : ¬ j = k := by
          intro hh
          exact (by simpa using hek : ¬ ek = k) (hej2.trans hh)
        rw [if_pos hej, if_pos hej, if_neg hjk]
      · rw [if_neg hej, if_neg hej]

theorem applySeq_cons (p : Nat → Nat → Option Nat) (db : DB) (op : POp)
    (rest : List POp) :
    applySeq p db (op :: rest) =
      (match performOp p db op with
       | .error _ => none
       | .ok (_, db1) => applySeq p db1 rest) := by
  rcases hp : performOp p db op with e | ⟨eff, db1⟩
  · simp only [applySeq, applyOps, hp]
  · rcases happ : applyOps p rest db1 with e2 | ⟨effs, db3⟩
    · simp only [applySeq, applyOps, hp, happ]
    · simp only [applySeq, applyOps, hp, happ]

theorem projCmds_nil (k : Nat × Nat) : projCmds k [] = [] := rfl

theorem projCmds_cons (k : Nat × Nat) (op : POp) (rest : List POp) :
    projCmds k (op :: rest) =
      if (opKey op == k) = true then op.command :: projCmds k rest
      else projCmds k rest := by
  unfold projCmds
  by_cases hk : (opKey op == k) = true
  · rw [if_pos hk, List.filter_cons, if_pos hk, List.map_cons]
  · rw [if_neg hk, List.filter_cons, if_neg hk]

theorem performOp_total (pv : Nat × Nat → Nat) (db : DB) (op : POp)
    (hstep : rowStep (pv (opKey op)) (dbGet db (opKey op)) op.command ≠ none) :
    ∃ db1 eff, performOp (fun ct r => some (pv (ct, r))) db op = .ok (eff, db1) ∧
      (∀ j, j ≠ opKey op → dbGet db1 j = dbGet db j) ∧
      some (dbGet db1 (opKey op)) =
        rowStep (pv (opKey op)) (dbGet db (opKey op)) op.command := by
  cases hc : op.command with
  | i =>
    rcases hg : dbGet db (opKey op) with _ | w
    · refine ⟨dbSet db (opKey op) (pv (opKey op)), some (pv (opKey op)), ?_, ?_, ?_⟩
      · simp only [performOp, hc, hg]
        rfl
      · intro j hj
        rw [dbGet_set, if_neg hj]
      · rw [dbGet_set, if_pos rfl]
        simp [rowStep]
    · by_cases hw : w = pv (opKey op)
      · refine ⟨db, none, ?_, fun j _ => rfl, ?_⟩
        · simp only [performOp, hc, hg]
          rw [if_pos (show w = pv (op.contentTypeId, op.rowId) from hw)]
        · rw [hg]
          simp [rowStep, hw]
      · exfalso
        apply hstep
        rw [hg, hc]
        simp [rowStep, hw]
  | u =>
    refine ⟨dbSet db (opKey op) (pv (opKey op)), some (pv (opKey op)), ?_, ?_, ?_⟩
    · simp only [performOp, hc]
      rfl
    · intro j hj
      rw [dbGet_set, if_neg hj]
    · rw [dbGet_set, if_pos rfl]
      cases dbGet db (opKey op) <;> simp [rowStep]
  | d =>
    rcases hg : dbGet db (opKey op) with _ | w
    · refine ⟨db, none, ?_, fun j _ => rfl, ?_⟩
      · simp only [performOp, hc, hg]
      · rw [hg]
        simp [rowStep]
    · refine ⟨dbDel db (opKey op), some w, ?_, ?_, ?_⟩
      · simp only [performOp, hc, hg]
      · intro j hj
        rw [dbGet_del, if_neg hj]
      · rw [dbGet_del, if_pos rfl]
        simp [rowStep]

theorem rowExec_nil (vk : Nat) (st : Option Nat) : rowExec vk st [] = some st := rfl

theorem rowExec_cons (vk : Nat) (st : Option Nat) (c : Cmd) (cs : List Cmd) :
    rowExec vk st (c :: cs) =
      (match rowStep vk st c with
       | none => none
       | some st2 => rowExec vk st2 cs) := rfl

theorem applySeq_pointwise (pv : Nat × Nat → Nat) :
    ∀ (ops : List POp) (db : DB),
      (∀ k, rowExec (pv k) (dbGet db k) (projCmds k ops) ≠ none) →
      ∃ db2, applySeq (fun ct r => some (pv (ct, r))) db ops = some db2 ∧
        ∀ k, some (dbGet db2 k) = rowExec (pv k) (dbGet db k) (projCmds k ops) := by
  intro ops
  induction ops with
  | nil =>
    intro db _
    exact ⟨db, rfl, fun k => rfl⟩
  | cons op rest ih =>
    intro db h
    have hself : (opKey op == opKey op) = true := by simp
    have hstep : rowStep (pv (opKey op)) (dbGet db (opKey op)) op.command ≠ none := by
      have hk := h (opKey op)
      rw [projCmds_cons, if_pos hself, rowExec_cons] at hk
      intro hcontra
      rw [hcontra] at hk
      exact hk rfl
    obtain ⟨db1, eff, hperf, hother, hkey⟩ := performOp_total pv db op hstep
    rcases hs : rowStep (pv (opKey op)) (dbGet db (opKey op)) op.command with _ | st2
    · exact absurd hs hstep
    have hdb1 : dbGet db1 (opKey op) = st2 := by
      rw [hs] at hkey
      exact Option.some_inj.mp hkey
    have hrest : ∀ k, rowExec (pv k) (dbGet db1 k) (projCmds k rest) ≠ none := by
      intro k
      by_cases hk : opKey op = k
      · subst hk
        have hk2 := h (opKey op)
        rw [projCmds_cons, if_pos hself, rowExec_cons, hs] at hk2
        rw [hdb1]
        exact hk2
      · rw [hother k fun hh => hk hh.symm]
        have hk2 := h k
        rw [projCmds_cons, if_neg (by simpa using hk)] at hk2
        exact hk2
    obtain ⟨db2, happ, hpoint⟩ := ih db1 hrest
    refine ⟨db2, ?_, ?_⟩
    · rw [applySeq_cons, hperf]
      exact happ
    · intro k
      by_cases hk : opKey op = k
      · subst hk
        rw [projCmds_cons, if_pos hself, rowExec_cons, hs]
        rw [← hdb1]
        exact hpoint (opKey op)
      · rw [projCmds_cons, if_neg (by simpa using hk)]
        rw [← hother k fun hh => hk hh.symm]
        exact hpoint k

theorem finishInv (vk : Nat) (st0 st : Option Nat) (acc : Option Cmd)
    (h : foldInv vk st0 st acc) : rowExec vk st0 (optCmds acc) = some st := by
  cases acc with
  | none => rw [h]; rfl
  | some c =>
    cases c with
    | i =>
      obtain ⟨h0, h2⟩ := h
      rw [h0, h2]
      rfl
    | u =>
      rw [h]
      cases st0 <;> rfl
    | d =>
      rw [h]
      cases st0 <;> rfl

theorem mainInv (vk : Nat) :
    ∀ (cmds : List Cmd) (acc : Option Cmd) (st0 st : Option Nat),
      foldInv vk st0 st acc → rowRealizable st.isSome cmds = true →
      ∃ fin, rowExec vk st cmds = some fin ∧
        foldInv vk st0 fin (cmds.foldl stepCmd acc) := by
  intro cmds
  induction cmds with
  | nil =>
    intro acc st0 st h _
    exact ⟨st, rfl, h⟩
  | cons c cs ih =>
    intro acc st0 st h hreal
    rcases st with _ | w
    · cases c with
      | i =>
        have hreal2 : rowRealizable true cs = true := hreal
        have hstep : rowExec vk none (Cmd.i :: cs) = rowExec vk (some vk) cs := rfl
        have hinv2 : foldInv vk st0 (some vk) (stepCmd acc Cmd.i) := by
          cases acc with
          | none => exact ⟨Eq.symm h, rfl⟩
          | some a =>
            cases a with
            | i => exact absurd h.2 (by simp [foldInv])
            | u => exact absurd h (by simp [foldInv])
            | d => exact rfl
        obtain ⟨fin, he, hi⟩ := ih (stepCmd acc Cmd.i) st0 (some vk) hinv2 hreal2
        exact ⟨fin, by rw [hstep]; exact he, by simpa [List.foldl_cons] using hi⟩
      | u => exact absurd hreal (by simp [rowRealizable])
      | d => exact absurd hreal (by simp [rowRealizable])
    · cases c with
      | i => exact absurd hreal (by simp [rowRealizable])
      | u =>
        have hreal2 : rowRealizable true cs = true := hreal
        have hstep : rowExec vk (some w) (Cmd.u :: cs) = rowExec vk (some vk) cs := rfl
        have hinv2 : foldInv vk st0 (some vk) (stepCmd acc Cmd.u) := by
          cases acc with
          | none => exact rfl
          | some a =>
            cases a with
            | i => exact ⟨h.1, rfl⟩
            | u => exact rfl
            | d => exact absurd h (by simp [foldInv])
        obtain ⟨fin, he, hi⟩ := ih (stepCmd acc Cmd.u) st0 (some vk) hinv2 hreal2
        exact ⟨fin, by rw [hstep]; exact he, by simpa [List.foldl_cons] using hi⟩
      | d =>
        have hreal2 : rowRealizable false cs = true := hreal
        have hstep : rowExec vk (some w) (Cmd.d :: cs) = rowExec vk none cs := rfl
        have hinv2 : foldInv vk st0 none (stepCmd acc Cmd.d) := by
          cases acc with
          | none => exact rfl
          | some a =>
            cases a with
            | i => exact h.1.symm ▸ rfl
            | u => exact rfl
            | d => exact absurd h (by simp [foldInv])
        obtain ⟨fin, he, hi⟩ := ih (stepCmd acc Cmd.d) st0 none hinv2 hreal2
        exact ⟨fin, by rw [hstep]; exact he, by simpa [List.foldl_cons] using hi⟩

theorem row_fold (vk : Nat) (st : Option Nat) (cmds : List Cmd)
    (h : rowRealizable st.isSome cmds = true) :
    rowExec vk st cmds ≠ none ∧
    rowExec vk st (optCmds (foldCmds cmds)) = rowExec vk st cmds := by
  obtain ⟨fin, hexec, hinv⟩ := mainInv vk cmds none st st rfl h
  have hfin := finishInv vk st fin (cmds.foldl stepCmd none) hinv
  constructor
  · rw [hexec]
    simp
  · rw [hexec]
    exact hfin

theorem projCmds_cons_upd (k : Nat × Nat) (e : POp) (c : Cmd) (es : List POp) :
    projCmds k ({ e with command := c } :: es) =
      if (opKey e == k) = true then c :: projCmds k es else projCmds k es := by
  rw [projCmds_cons]
  rfl

theorem ins_proj_ne (k : Nat × Nat) (op : POp) (hk : ¬ opKey op = k) :
    ∀ acc, projCmds k (insertOp acc op) = projCmds k acc := by
  intro acc
  induction acc with
  | nil =>
    rw [show insertOp [] op = [op] from rfl, projCmds_cons, projCmds_nil,
      if_neg (by simp [hk])]
  | cons e es ih =>
    by_cases hke : opKey e = opKey op
    · have hek : ¬ opKey e = k := fun h => hk (hke ▸ h)
      simp only [insertOp, if_pos hke]
      cases hfp : foldPair e.command op.command with
      | some c =>
        dsimp only
        rw [projCmds_cons_upd, projCmds_cons, if_neg (by simp [hek]),
          if_neg (by simp [hek])]
      | none =>
        dsimp only
        rw [projCmds_cons, if_neg (by simp [hek])]
    · simp only [insertOp, if_neg hke]
      rw [projCmds_cons, projCmds_cons, ih]

theorem ins_proj_eq (op : POp) :
    ∀ acc, (projCmds (opKey op) acc).length ≤ 1 →
      projCmds (opKey op) (insertOp acc op) =
        optCmds (stepCmd (projCmds (opKey op) acc).head? op.command) := by
  intro acc
  induction acc with
  | nil =>
    intro _
    rw [show insertOp [] op = [op] from rfl, projCmds_cons, projCmds_nil,
      if_pos (by simp)]
    rfl
  | cons e es ih =>
    intro hlen
    by_cases hke : opKey e = opKey op
    · have hproj : projCmds (opKey op) (e :: es) =
          e.command :: projCmds (opKey op) es := by
        rw [projCmds_cons, if_pos (by simp [hke])]
      have hes : projCmds (opKey op) es = [] := by
        rw [hproj] at hlen
        simp only [List.length_cons] at hlen
        exact List.length_eq_zero.mp (by omega)
      simp only [insertOp, if_pos hke]
      cases hfp : foldPair e.command op.command with
      | some c =>
        dsimp only
        rw [projCmds_cons_upd, if_pos (by simp [hke]), hes, hproj]
        simp only [List.head?_cons, stepCmd, hfp]
        rfl
      | none =>
        dsimp only
        rw [hes, hproj]
        simp only [List.head?_cons, stepCmd, hfp]
        rfl
    · have hproj : projCmds (opKey op) (e :: es) = projCmds (opKey op) es := by
        rw [projCmds_cons, if_neg (by simp [hke])]
      rw [hproj] at hlen
      have hstep := ih hlen
      simp only [insertOp, if_neg hke]
      rw [projCmds_cons, if_neg (by simp [hke]), hstep, hproj]

theorem ins_bound (acc : List POp) (op : POp)
    (h : ∀ k2, (projCmds k2 acc).length ≤ 1) :
    ∀ k2, (projCmds k2 (insertOp acc op)).length ≤ 1 := by
  intro k2
  by_cases hk : opKey op = k2
  · subst hk
    rw [ins_proj_eq op acc (h (opKey op))]
    cases stepCmd (projCmds (opKey op) acc).head? op.command <;> simp [optCmds]
  · rw [ins_proj_ne k2 op hk acc]
    exact h k2

theorem foldl_proj_char :
    ∀ (ops : List POp) (acc : List POp) (k : Nat × Nat),
      (∀ k2, (projCmds k2 acc).length ≤ 1) →
      projCmds k (ops.foldl insertOp acc) =
        optCmds ((projCmds k ops).foldl stepCmd (projCmds k acc).head? ) := by
  intro ops
  induction ops with
  | nil =>
    intro acc k h
    rw [List.foldl_nil, projCmds_nil, List.foldl_nil]
    have hl := h k
    rcases hacc : projCmds k acc with _ | ⟨c, cs⟩
    · rfl
    · rw [hacc] at hl
      simp only [List.length_cons] at hl
      have hcs : cs = [] := List.length_eq_zero.mp (by omega)
      subst hcs
      rfl
  | cons op rest ih =>
    intro acc k h
    rw [List.foldl_cons, ih (insertOp acc op) k (ins_bound acc op h)]
    congr 1
    by_cases hk : opKey op = k
    · subst hk
      rw [ins_proj_eq op acc (h (opKey op)), projCmds_cons, if_pos (by simp),
        List.foldl_cons]
      congr 1
      cases stepCmd (projCmds (opKey op) acc).head? op.command <;> rfl
    · rw [ins_proj_ne k op hk acc, projCmds_cons, if_neg (by simp [hk])]

theorem compress_le (ops : List POp) (k : Nat × Nat) :
    (projCmds k (compress ops)).length ≤ 1 := by
  have h := foldl_proj_char ops [] k (fun k2 => by rw [projCmds_nil]; exact Nat.zero_le 1)
  have h2 : projCmds k (compress ops) =
      optCmds ((projCmds k ops).foldl stepCmd none) := h
  rw [h2]
  cases (projCmds k ops).foldl stepCmd none <;> simp [optCmds]

theorem compress_char (ops : List POp) (k : Nat × Nat) :
    projCmds k (compress ops) = optCmds (foldCmds (projCmds k ops)) := by
  exact foldl_proj_char ops [] k (fun k2 => by rw [projCmds_nil]; exact Nat.zero_le 1)

theorem ins_sub (op : POp) :
    ∀ acc : List POp,
      List.Sublist ((insertOp acc op).map opKey) (acc.map opKey ++ [opKey op]) := by
  intro acc
  induction acc with
  | nil => simp [insertOp]
  | cons e es ih =>
    by_cases hke : opKey e = opKey op
    · simp only [insertOp, if_pos hke]
      cases hfp : foldPair e.command op.command with
      | some c =>
        dsimp only
        rw [List.map_cons, List.map_cons, List.cons_append]
        exact List.Sublist.cons₂ _ (List.sublist_append_left _ _)
      | none =>
        dsimp only
        rw [List.map_cons, List.cons_append]
        exact List.Sublist.cons _ (List.sublist_append_left _ _)
    · simp only [insertOp, if_neg hke]
      rw [List.map_cons, List.map_cons, List.cons_append]
      exact List.Sublist.cons₂ _ ih

theorem foldl_sub :
    ∀ (ops acc : List POp),
      List.Sublist ((ops.foldl insertOp acc).map opKey)
        (acc.map opKey ++ ops.map opKey) := by
  intro ops
  induction ops with
  | nil =>
    intro acc
    simp
  | cons op rest ih =>
    intro acc
    rw [List.foldl_cons]
    refine (ih (insertOp acc op)).trans ?_
    rw [List.map_cons]
    have hstep := List.Sublist.append (ins_sub op acc) (List.Sublist.refl (rest.map opKey))
    have heq : (acc.map opKey ++ [opKey op]) ++ rest.map opKey =
        acc.map opKey ++ opKey op :: rest.map opKey := by
      rw [List.append_assoc, List.singleton_append]
    exact heq ▸ hstep

theorem compress_sub (ops : List POp) :
    List.Sublist ((compress ops).map opKey) (ops.map opKey) := by
  have h := foldl_sub ops []
  simpa using h

theorem proj_not_mem (k : Nat × Nat) :
    ∀ ops : List POp, ¬ k ∈ ops.map opKey → projCmds k ops = [] := by
  intro ops
  induction ops with
  | nil => intro _; rfl
  | cons op rest ih =>
    intro h
    have h1 : ¬ opKey op = k := fun he => h (by
      rw [List.map_cons]
      exact he ▸ List.mem_cons_self _ _)
    have h2 : ¬ k ∈ rest.map opKey := fun hm => h (by
      rw [List.map_cons]
      exact List.mem_cons_of_mem _ hm)
    rw [projCmds_cons, if_neg (by simp [h1]), ih h2]

/-- **C2** (amended: the final-state equivalence holds for every starting
state from which the operation sequence is realizable — inserts only of
absent rows, updates and deletes only of present rows; the
counterexample below shows it fails for arbitrary starting states).
`compress()` (modelled from the spec, §4.3) leaves at most one operation
per `(content_type_id, row_id)`, the surviving operations keep the
relative order of the original rows, and applying the compressed
sequence yields the same final database state as applying the original
sequence, row for row. -/
theorem compress_spec (ops : List POp) (pv : Nat × Nat → Nat) (db : DB)
    (hreal : realizable db ops = true) :
    (∀ k, ((compress ops).filter fun o => opKey o == k).length ≤ 1) ∧
    List.Sublist ((compress ops).map opKey) (ops.map opKey) ∧
    ∃ db1 db2,
      applySeq (fun ct r => some (pv (ct, r))) db ops = some db1 ∧
      applySeq (fun ct r => some (pv (ct, r))) db (compress ops) = some db2 ∧
      ∀ k, dbGet db1 k = dbGet db2 k := by
  simp only [realizable, List.all_eq_true] at hreal
  have hrow : ∀ k, rowExec (pv k) (dbGet db k) (projCmds k ops) ≠ none ∧
      rowExec (pv k) (dbGet db k) (optCmds (foldCmds (projCmds k ops))) =
        rowExec (pv k) (dbGet db k) (projCmds k ops) := by
    intro k
    by_cases hk : k ∈ ops.map opKey
    · exact row_fold (pv k) (dbGet db k) (projCmds k ops) (hreal k hk)
    · rw [proj_not_mem k ops hk]
      exact ⟨by rw [rowExec_nil]; exact Option.noConfusion, rfl⟩
  obtain ⟨db1, h1, hpt1⟩ := applySeq_pointwise pv ops db (fun k => (hrow k).1)
  have hne2 : ∀ k, rowExec (pv k) (dbGet db k) (projCmds k (compress ops)) ≠ none := by
    intro k
    rw [compress_char ops k, (hrow k).2]
    exact (hrow k).1
  obtain ⟨db2, h2, hpt2⟩ := applySeq_pointwise pv (compress ops) db hne2
  refine ⟨?_, compress_sub ops, db1, db2, h1, h2, ?_⟩
  · intro k
    have hc := compress_le ops k
    simp only [projCmds, List.length_map] at hc
    exact hc
  · intro k
    have e1 := hpt1 k
    have e2 := hpt2 k
    rw [compress_char ops k, (hrow k).2] at e2
    exact Option.some.inj (e1.trans e2.symm)

theorem compress_spec_witness :
    realizable [((1, 6), 4)]
      [⟨5, 1, Cmd.i, 0⟩, ⟨5, 1, Cmd.u, 1⟩, ⟨6, 1, Cmd.u, 2⟩] = true ∧
    ((∀ k, ((compress [⟨5, 1, Cmd.i, 0⟩, ⟨5, 1, Cmd.u, 1⟩, ⟨6, 1, Cmd.u, 2⟩]).filter
        fun o => opKey o == k).length ≤ 1) ∧
     List.Sublist
       ((compress [⟨5, 1, Cmd.i, 0⟩, ⟨5, 1, Cmd.u, 1⟩, ⟨6, 1, Cmd.u, 2⟩]).map opKey)
       ([⟨5, 1, Cmd.i, 0⟩, ⟨5, 1, Cmd.u, 1⟩, ⟨6, 1, Cmd.u, 2⟩].map opKey) ∧
     ∃ db1 db2,
       applySeq (fun ct r => some ((fun _ => 9) (ct, r))) [((1, 6), 4)]
         [⟨5, 1, Cmd.i, 0⟩, ⟨5, 1, Cmd.u, 1⟩, ⟨6, 1, Cmd.u, 2⟩] = some db1 ∧
       applySeq (fun ct r => some ((fun _ => 9) (ct, r))) [((1, 6), 4)]
         (compress [⟨5, 1, Cmd.i, 0⟩, ⟨5, 1, Cmd.u, 1⟩, ⟨6, 1, Cmd.u, 2⟩]) = some db2 ∧
       ∀ k, dbGet db1 k = dbGet db2 k) :=
  ⟨by decide,
   compress_spec [⟨5, 1, Cmd.i, 0⟩, ⟨5, 1, Cmd.u, 1⟩, ⟨6, 1, Cmd.u, 2⟩]
     (fun _ => 9) [((1, 6), 4)] (by decide)⟩

/-- The literal claim fails: from a state already holding the row with an
identical payload, `[insert, delete]` deletes the row (the insert is the
skipped no-op of `perform_async`, the delete removes it), while the
compressed sequence is empty and keeps it. -/
theorem compress_equiv_counterexample :
    (applySeq (fun _ _ => some 0) [((1, 5), 0)]
        [⟨5, 1, Cmd.i, 0⟩, ⟨5, 1, Cmd.d, 1⟩]).map (fun d => dbGet d (1, 5)) ≠
    (applySeq (fun _ _ => some 0) [((1, 5), 0)]
        (compress [⟨5, 1, Cmd.i, 0⟩, ⟨5, 1, Cmd.d, 1⟩])).map
      (fun d => dbGet d (1, 5)) := by
  decide

end Dbsync
